import Mathlib

/-!
Shallow embedding of the Sekiro_bittorrent client core, for checking the
natural-language specification against the code.

Modelling conventions:
* Bytes are `Nat` (values 0..255); byte strings are `List Nat`.
* Rust `usize`/`i64` become `Nat`/`Int`; where the source performs a checked
  string parse the model performs the same range check explicitly.
* `HashMap`/`HashSet` become association lists / lists kept duplicate-free by
  the same insert/remove operations the source uses.
* `Instant` becomes a `Nat` tick count (seconds); `Instant::now()` becomes an
  explicit `now` argument.
* SHA-1 (an external crate in the source) is an explicit function parameter
  `sha1 : List Nat → List Nat`.
* Fallible Rust functions (`Result`) return `Except String`; a Rust panic
  (out-of-bounds index) is modelled by an `Option` wrapper returning `none`.
-/

namespace Sekiro

set_option maxRecDepth 16000

/-- ASCII digit test, as `u8::is_ascii_digit` in the source. -/
def isAsciiDigit (b : Nat) : Bool := 48 ≤ b && b ≤ 57

/-- Numeric value of a list of ASCII digit bytes, most significant first.
This is the accumulation step inside Rust's integer `from_str`. -/
def digitsVal (l : List Nat) : Nat := l.foldl (fun a d => 10 * a + (d - 48)) 0

/-- Shared digit-run step of Rust's integer `from_str`: a non-empty all-digit
run, yielding its value. -/
def parseDigitRun (l : List Nat) : Option Nat :=
  if l = [] then none
  else if l.all (fun b => isAsciiDigit b) then some (digitsVal l)
  else none

/-- Model of Rust's `str::parse::<usize>` as applied to the collected
byte-string length digits (which the caller has already checked to be
digits): requires a non-empty digit run whose value fits in 64 bits.
(Rust's `usize` parser also accepts a leading `+`; the source never feeds it
one, so the model omits it.) -/
def parseUsize (l : List Nat) : Option Nat :=
  match parseDigitRun l with
  | some v => if v ≤ 2 ^ 64 - 1 then some v else none
  | none => none

/-- Model of Rust's `str::parse::<i64>`: optional `+`/`-` sign, then a
non-empty digit run, value range-checked against `i64`. Note that this
accepts leading zeros and `-0`, exactly as Rust's parser does. -/
def parseI64 : List Nat → Option Int
  | [] => none
  | b :: ds =>
      if b = 45 then
        match parseDigitRun ds with
        | some v => if v ≤ 2 ^ 63 then some (-(v : Int)) else none
        | none => none
      else
        match parseDigitRun (if b = 43 then ds else b :: ds) with
        | some v => if v ≤ 2 ^ 63 - 1 then some (v : Int) else none
        | none => none

/-- Most-significant-first decimal digits of `n` (empty for 0), with a fuel
argument so that the definition is structurally recursive and evaluates
inside the kernel. -/
def natToAsciiAux : Nat → Nat → List Nat
  | 0, _ => []
  | fuel + 1, n => if n = 0 then [] else natToAsciiAux fuel (n / 10) ++ [n % 10 + 48]

/-- Decimal rendering of a `Nat` as ASCII bytes, as Rust's `to_string`. -/
def natToAscii (n : Nat) : List Nat :=
  if n = 0 then [48] else natToAsciiAux n n

/-- Decimal rendering of an `i64` as ASCII bytes, as Rust's `to_string`. -/
def intToAscii (i : Int) : List Nat :=
  if i < 0 then 45 :: natToAscii i.natAbs else natToAscii i.natAbs

theorem natToAsciiAux_eq_digits (fuel n : Nat) (h : n ≤ fuel) :
    natToAsciiAux fuel n = ((Nat.digits 10 n).map (fun d => d + 48)).reverse := by
  induction fuel generalizing n with
  | zero =>
      have : n = 0 := by omega
      subst this
      simp [natToAsciiAux]
  | succ fuel ih =>
      by_cases hn : n = 0
      · subst hn
        simp [natToAsciiAux]
      · have hstep : natToAsciiAux (fuel + 1) n
            = if n = 0 then [] else natToAsciiAux fuel (n / 10) ++ [n % 10 + 48] := rfl
        rw [hstep, if_neg hn]
        have hdiv : n / 10 ≤ fuel := by omega
        rw [ih (n / 10) hdiv]
        rw [Nat.digits_def' (by norm_num : 1 < 10) (by omega : 0 < n)]
        simp

theorem natToAscii_eq_digits (n : Nat) :
    natToAscii n = if n = 0 then [48]
      else ((Nat.digits 10 n).map (fun d => d + 48)).reverse := by
  unfold natToAscii
  split
  · rfl
  · exact natToAsciiAux_eq_digits n n (Nat.le_refl n)

theorem natToAscii_ne_nil (n : Nat) : natToAscii n ≠ [] := by
  rw [natToAscii_eq_digits]
  split
  · simp
  · rename_i h
    intro hcontra
    have hne : Nat.digits 10 n ≠ [] := Nat.digits_ne_nil_iff_ne_zero.mpr h
    simp_all

theorem natToAscii_digits (n : Nat) : ∀ b ∈ natToAscii n, 48 ≤ b ∧ b ≤ 57 := by
  intro b hb
  rw [natToAscii_eq_digits] at hb
  split at hb
  · simp at hb; omega
  · simp only [List.mem_reverse, List.mem_map] at hb
    obtain ⟨d, hd, rfl⟩ := hb
    have := Nat.digits_lt_base (by norm_num) hd
    omega

theorem digitsVal_natToAscii (n : Nat) : digitsVal (natToAscii n) = n := by
  rw [natToAscii_eq_digits]
  split
  · simp_all [digitsVal]
  · unfold digitsVal
    have key : ∀ (L : List Nat) (a : Nat),
        (L.map (fun d => d + 48)).reverse.foldl (fun a d => 10 * a + (d - 48)) a
          = a * 10 ^ L.length + Nat.ofDigits 10 L := by
      intro L
      induction L with
      | nil => intro a; simp
      | cons d L ih =>
          intro a
          simp only [List.map_cons, List.reverse_cons, List.foldl_append,
            List.foldl_cons, List.foldl_nil, ih, Nat.ofDigits_cons,
            Nat.add_sub_cancel, List.length_cons]
          ring
    rw [key]
    simpa using Nat.ofDigits_digits 10 n

theorem parseDigitRun_natToAscii (n : Nat) :
    parseDigitRun (natToAscii n) = some n := by
  unfold parseDigitRun
  rw [if_neg (natToAscii_ne_nil n)]
  have hall : (natToAscii n).all (fun b => isAsciiDigit b) = true := by
    rw [List.all_eq_true]
    intro b hb
    have := natToAscii_digits n b hb
    simp only [isAsciiDigit, Bool.and_eq_true, decide_eq_true_eq]
    omega
  rw [if_pos hall, digitsVal_natToAscii]

theorem parseUsize_natToAscii (n : Nat) (h : n ≤ 2 ^ 64 - 1) :
    parseUsize (natToAscii n) = some n := by
  unfold parseUsize
  rw [parseDigitRun_natToAscii]
  show (if n ≤ 2 ^ 64 - 1 then some n else none) = some n
  rw [if_pos h]

theorem parseI64_intToAscii (i : Int) (hlo : -(2 ^ 63) ≤ i) (hhi : i ≤ 2 ^ 63 - 1) :
    parseI64 (intToAscii i) = some i := by
  by_cases hneg : i < 0
  · have heq : intToAscii i = 45 :: natToAscii i.natAbs := by
      unfold intToAscii; rw [if_pos hneg]
    rw [heq]
    show (if (45 : Nat) = 45 then
        match parseDigitRun (natToAscii i.natAbs) with
        | some v => if v ≤ 2 ^ 63 then some (-(v : Int)) else none
        | none => none
      else
        match parseDigitRun
            (if (45 : Nat) = 43 then natToAscii i.natAbs
             else 45 :: natToAscii i.natAbs) with
        | some v => if v ≤ 2 ^ 63 - 1 then some (v : Int) else none
        | none => none) = some i
    rw [if_pos rfl, parseDigitRun_natToAscii]
    have hle : i.natAbs ≤ 2 ^ 63 := by omega
    show (if i.natAbs ≤ 2 ^ 63 then some (-(i.natAbs : Int)) else none) = some i
    rw [if_pos hle]
    congr 1
    omega
  · have hfirst : intToAscii i = natToAscii i.natAbs := by
      unfold intToAscii; rw [if_neg hneg]
    rw [hfirst]
    rcases hcons : natToAscii i.natAbs with _ | ⟨b, rest⟩
    · exact absurd hcons (natToAscii_ne_nil _)
    · have hb : 48 ≤ b ∧ b ≤ 57 :=
        natToAscii_digits i.natAbs b (by rw [hcons]; exact List.mem_cons_self b rest)
      show (if b = 45 then
          match parseDigitRun rest with
          | some v => if v ≤ 2 ^ 63 then some (-(v : Int)) else none
          | none => none
        else
          match parseDigitRun (if b = 43 then rest else b :: rest) with
          | some v => if v ≤ 2 ^ 63 - 1 then some (v : Int) else none
          | none => none) = some i
      rw [if_neg (by omega : ¬ b = 45), if_neg (by omega : ¬ b = 43), ← hcons,
        parseDigitRun_natToAscii]
      have hle : i.natAbs ≤ 2 ^ 63 - 1 := by omega
      show (if i.natAbs ≤ 2 ^ 63 - 1 then some ((i.natAbs : Int)) else none) = some i
      rw [if_pos hle]
      congr 1
      omega

/-!  ## Bencode codec (src/protocol/bencode.rs, src/protocol/torrent.rs)  -/

/-- The `BencodeValue` enum of `src/protocol/bencode.rs`. A dictionary is a
flat vector of alternating keys and values, exactly as in the source. -/
inductive BencodeValue : Type where
  | list (l : List BencodeValue)
  | dictionary (l : List BencodeValue)
  | bytes (b : List Nat)
  | integer (i : Int)

mutual

/-- `Torrent::encode_bencode` of `src/protocol/torrent.rs`, returning the
produced buffer. Note the dictionary loop `while i + 1 < dict.len()` encodes
consecutive (key, value) pairs and drops a trailing unpaired element. -/
def encodeBencode : BencodeValue → List Nat
  | .integer i => 105 :: intToAscii i ++ [101]
  | .list ls => 108 :: encodeSeq ls ++ [101]
  | .dictionary dict => 100 :: encodePairs dict ++ [101]
  | .bytes bs => natToAscii bs.length ++ 58 :: bs

/-- The `for i in ls` loop inside `encode_bencode`'s list arm. -/
def encodeSeq : List BencodeValue → List Nat
  | [] => []
  | v :: rest => encodeBencode v ++ encodeSeq rest

/-- The `while i + 1 < dict.len()` pair loop inside `encode_bencode`. -/
def encodePairs : List BencodeValue → List Nat
  | key :: val :: rest => encodeBencode key ++ encodeBencode val ++ encodePairs rest
  | _ => []

end

/-- `BencodeValue::decode_integer`: after skipping the leading `i`, collect
bytes up to the terminating `e`, then parse them with Rust's `i64` parser.
(The source's intermediate UTF-8 validation can only fail on inputs the
`i64` parse would reject anyway, so it introduces no extra outcomes.) -/
def decodeInteger (l : List Nat) : Except String (BencodeValue × List Nat) :=
  let r := l.tail
  let numberBytes := r.takeWhile (fun b => b ≠ 101)
  match r.drop numberBytes.length with
  | 101 :: rest =>
      match parseI64 numberBytes with
      | some n => .ok (.integer n, rest)
      | none => .error "Invalid integer format"
  | _ => .error "Integer not terminated by e"

/-- `BencodeValue::decode_bytes`: collect decimal length digits up to `:`
(rejecting any non-digit on the way), parse the length, then take exactly
that many raw bytes. -/
def decodeBytes (l : List Nat) : Except String (BencodeValue × List Nat) :=
  let lengthBytes := l.takeWhile (fun b => b ≠ 58)
  if lengthBytes.all (fun b => isAsciiDigit b) then
    match l.drop lengthBytes.length with
    | 58 :: rest =>
        match parseUsize lengthBytes with
        | some n =>
            if rest.length < n then .error "Not enough bytes to read string"
            else .ok (.bytes (rest.take n), rest.drop n)
        | none => .error "Invalid length"
    | _ => .error "Expected Values not Found"
  else .error "Invalid Bytes Length Prefix"

mutual

/-- `BencodeValue::decode_from_reader` with its two loops
(`decode_list`, `decode_dictionary`), made total with a fuel argument that
strictly decreases at every recursive call; `BencodeValue.decode` supplies
enough fuel for any input. -/
def decodeFromReader : Nat → List Nat → Except String (BencodeValue × List Nat)
  | 0, _ => .error "out of fuel"
  | _ + 1, [] => .error "No Data Remaining To Decode"
  | fuel + 1, c :: rest =>
      if c = 108 then decodeListLoop fuel [] rest
      else if c = 105 then decodeInteger (c :: rest)
      else if c = 100 then decodeDictLoop fuel [] rest
      else if 48 ≤ c ∧ c ≤ 57 then decodeBytes (c :: rest)
      else .error "Value cannot be decoded"

/-- The `while` loop of `decode_list`: decode values until the closing `e`. -/
def decodeListLoop : Nat → List BencodeValue → List Nat → Except String (BencodeValue × List Nat)
  | 0, _, _ => .error "out of fuel"
  | _ + 1, _, [] => .error "List not terminated by e"
  | fuel + 1, acc, c :: rest =>
      if c = 101 then .ok (.list acc, rest)
      else
        match decodeFromReader fuel (c :: rest) with
        | .ok (v, rest2) => decodeListLoop fuel (acc ++ [v]) rest2
        | .error e => .error e

/-- The `while` loop of `decode_dictionary`: decode a key and a value per
iteration, pushing both onto the flat pair list, until the closing `e`. -/
def decodeDictLoop : Nat → List BencodeValue → List Nat → Except String (BencodeValue × List Nat)
  | 0, _, _ => .error "out of fuel"
  | _ + 1, _, [] => .error "Dictionary not terminated by e"
  | fuel + 1, acc, c :: rest =>
      if c = 101 then .ok (.dictionary acc, rest)
      else
        match decodeFromReader fuel (c :: rest) with
        | .ok (k, rest2) =>
            match decodeFromReader fuel rest2 with
            | .ok (v, rest3) => decodeDictLoop fuel (acc ++ [k, v]) rest3
            | .error e => .error e
        | .error e => .error e

end

/-- `BencodeValue::decode`: decode one root value and fail if any bytes
remain unconsumed. -/
def BencodeValue.decode (bytes : List Nat) : Except String BencodeValue :=
  match decodeFromReader (bytes.length + 1) bytes with
  | .ok (v, rest) =>
      if rest.length ≠ 0 then .error "Leftover data after decoding Bencode value"
      else .ok v
  | .error e => .error e

mutual

/-- Well-formed values: the class of `BencodeValue`s whose Rust counterparts
can exist and survive encoding intact (integers fit in `i64`, byte-string
lengths fit in `usize`, dictionaries carry a whole number of key/value
pairs). -/
def wfBencode : BencodeValue → Bool
  | .integer i => decide (-(2 ^ 63) ≤ i) && decide (i ≤ 2 ^ 63 - 1)
  | .bytes bs => decide (bs.length ≤ 2 ^ 64 - 1)
  | .list ls => wfSeq ls
  | .dictionary d => decide (d.length % 2 = 0) && wfSeq d

/-- `wfBencode` for every element of a list. -/
def wfSeq : List BencodeValue → Bool
  | [] => true
  | v :: rest => wfBencode v && wfSeq rest

end

theorem takeWhile_all_append (p : Nat → Bool) (l₁ l₂ : List Nat)
    (h : ∀ a ∈ l₁, p a = true) :
    (l₁ ++ l₂).takeWhile p = l₁ ++ l₂.takeWhile p := by
  induction l₁ with
  | nil => simp
  | cons a l ih =>
      have ha : p a = true := h a (List.mem_cons_self a l)
      rw [List.cons_append, List.takeWhile_cons, if_pos ha,
        ih (fun x hx => h x (List.mem_cons_of_mem a hx))]
      rfl

theorem intToAscii_ne_e (i : Int) : ∀ b ∈ intToAscii i, b ≠ 101 := by
  intro b hb
  unfold intToAscii at hb
  split at hb
  · rcases List.mem_cons.mp hb with rfl | hb2
    · omega
    · have := natToAscii_digits _ b hb2; omega
  · have := natToAscii_digits _ b hb; omega

theorem encodeBencode_head (v : BencodeValue) :
    ∃ c t, encodeBencode v = c :: t ∧ c ≠ 101 := by
  cases v with
  | integer i => exact ⟨105, _, rfl, by omega⟩
  | list ls => exact ⟨108, _, rfl, by omega⟩
  | dictionary d => exact ⟨100, _, rfl, by omega⟩
  | bytes bs =>
      rcases hcons : natToAscii bs.length with _ | ⟨c, t⟩
      · exact absurd hcons (natToAscii_ne_nil _)
      · have hc : 48 ≤ c ∧ c ≤ 57 :=
          natToAscii_digits _ c (by rw [hcons]; exact List.mem_cons_self c t)
        refine ⟨c, t ++ 58 :: bs, ?_, by omega⟩
        show natToAscii bs.length ++ 58 :: bs = c :: (t ++ 58 :: bs)
        rw [hcons]
        simp

theorem encodeBencode_length_pos (v : BencodeValue) : 1 ≤ (encodeBencode v).length := by
  obtain ⟨c, t, heq, -⟩ := encodeBencode_head v
  rw [heq]
  simp

theorem encodePairs_eq_encodeSeq :
    ∀ l : List BencodeValue, l.length % 2 = 0 → encodePairs l = encodeSeq l
  | [] => fun _ => rfl
  | [x] => by intro h; simp at h
  | k :: v :: rest => by
      intro h
      have hrest : rest.length % 2 = 0 := by
        simp only [List.length_cons] at h
        omega
      show encodeBencode k ++ encodeBencode v ++ encodePairs rest
        = encodeBencode k ++ (encodeBencode v ++ encodeSeq rest)
      rw [encodePairs_eq_encodeSeq rest hrest, List.append_assoc]

/-- The combined decode-of-encode induction: decoding an encoded well-formed
value (with any fuel at least the encoded length) succeeds and consumes
exactly the encoding, and likewise for the list/dictionary loops. -/
theorem decode_encode_fuel (fuel : Nat) :
    (∀ v r, wfBencode v = true → (encodeBencode v).length ≤ fuel →
      decodeFromReader fuel (encodeBencode v ++ r) = .ok (v, r))
    ∧ (∀ items acc r, wfSeq items = true → (encodeSeq items).length + 1 ≤ fuel →
      decodeListLoop fuel acc (encodeSeq items ++ 101 :: r) = .ok (.list (acc ++ items), r))
    ∧ (∀ items acc r, wfSeq items = true → items.length % 2 = 0 →
      (encodeSeq items).length + 1 ≤ fuel →
      decodeDictLoop fuel acc (encodeSeq items ++ 101 :: r)
        = .ok (.dictionary (acc ++ items), r)) := by
  induction fuel with
  | zero =>
      refine ⟨fun v r _ hlen => ?_, fun items acc r _ hlen => ?_, fun items acc r _ _ hlen => ?_⟩
      · have := encodeBencode_length_pos v; omega
      · omega
      · omega
  | succ fuel ih =>
      obtain ⟨ihMain, ihList, ihDict⟩ := ih
      refine ⟨?_, ?_, ?_⟩
      · -- decodeFromReader on an encoded value
        intro v r hwf hlen
        cases v with
        | integer i =>
            have hshape : encodeBencode (BencodeValue.integer i) ++ r
                = 105 :: (intToAscii i ++ 101 :: r) := by
              show (105 :: intToAscii i ++ [101]) ++ r = _
              simp
            rw [hshape]
            have hdisp : decodeFromReader (fuel + 1) (105 :: (intToAscii i ++ 101 :: r))
                = decodeInteger (105 :: (intToAscii i ++ 101 :: r)) := by
              simp [decodeFromReader]
            rw [hdisp]
            unfold decodeInteger
            simp only [List.tail_cons]
            rw [takeWhile_all_append _ _ _
              (fun a ha => by simp only [decide_eq_true_eq]; exact intToAscii_ne_e i a ha)]
            have h101 : (101 :: r).takeWhile (fun b => b ≠ 101) = [] := by
              simp [List.takeWhile_cons]
            rw [h101, List.append_nil]
            simp only [List.drop_left]
            have hrange : -(2 ^ 63) ≤ i ∧ i ≤ 2 ^ 63 - 1 := by
              have hw := hwf
              unfold wfBencode at hw
              simp only [Bool.and_eq_true, decide_eq_true_eq] at hw
              exact hw
            rw [parseI64_intToAscii i hrange.1 hrange.2]
        | bytes bs =>
            rcases hcons : natToAscii bs.length with _ | ⟨c, t⟩
            · exact absurd hcons (natToAscii_ne_nil _)
            have hc : 48 ≤ c ∧ c ≤ 57 :=
              natToAscii_digits _ c (by rw [hcons]; exact List.mem_cons_self c t)
            have hshape : encodeBencode (BencodeValue.bytes bs) ++ r
                = c :: (t ++ 58 :: (bs ++ r)) := by
              show (natToAscii bs.length ++ 58 :: bs) ++ r = _
              rw [hcons]; simp
            rw [hshape]
            have hdisp : decodeFromReader (fuel + 1) (c :: (t ++ 58 :: (bs ++ r)))
                = decodeBytes (c :: (t ++ 58 :: (bs ++ r))) := by
              simp only [decodeFromReader]
              rw [if_neg (by omega : ¬ c = 108), if_neg (by omega : ¬ c = 105),
                if_neg (by omega : ¬ c = 100), if_pos hc]
            rw [hdisp]
            unfold decodeBytes
            have hback : c :: (t ++ 58 :: (bs ++ r))
                = natToAscii bs.length ++ 58 :: (bs ++ r) := by rw [hcons]; simp
            rw [hback]
            rw [takeWhile_all_append _ _ _
              (fun a ha => by
                have := natToAscii_digits bs.length a ha
                simp only [decide_eq_true_eq]; omega)]
            have h58 : (58 :: (bs ++ r)).takeWhile (fun b => b ≠ 58) = [] := by
              simp [List.takeWhile_cons]
            rw [h58, List.append_nil]
            have hall : (natToAscii bs.length).all (fun b => isAsciiDigit b) = true := by
              rw [List.all_eq_true]
              intro b hb
              have := natToAscii_digits bs.length b hb
              simp only [isAsciiDigit, Bool.and_eq_true, decide_eq_true_eq]
              omega
            rw [if_pos hall]
            simp only [List.drop_left]
            have hbound : bs.length ≤ 2 ^ 64 - 1 := by
              have hw := hwf
              unfold wfBencode at hw
              simpa using hw
            rw [parseUsize_natToAscii bs.length hbound]
            have hnotlt : ¬ (bs ++ r).length < bs.length := by simp
            show (if (bs ++ r).length < bs.length
                then Except.error "Not enough bytes to read string"
                else Except.ok (BencodeValue.bytes (List.take bs.length (bs ++ r)),
                  List.drop bs.length (bs ++ r)))
              = Except.ok (BencodeValue.bytes bs, r)
            rw [if_neg hnotlt]
            rw [List.take_left, List.drop_left]
        | list ls =>
            have hshape : encodeBencode (BencodeValue.list ls) ++ r
                = 108 :: (encodeSeq ls ++ 101 :: r) := by
              show (108 :: encodeSeq ls ++ [101]) ++ r = _
              simp
            rw [hshape]
            have hdisp : decodeFromReader (fuel + 1) (108 :: (encodeSeq ls ++ 101 :: r))
                = decodeListLoop fuel [] (encodeSeq ls ++ 101 :: r) := by
              simp [decodeFromReader]
            rw [hdisp]
            have hwf2 : wfSeq ls = true := by
              have hw := hwf; unfold wfBencode at hw; exact hw
            have hlen2 : (encodeSeq ls).length + 1 ≤ fuel := by
              have hL : (encodeBencode (BencodeValue.list ls)).length
                  = (encodeSeq ls).length + 2 := by
                show (108 :: encodeSeq ls ++ [101]).length = _
                simp
              omega
            rw [ihList ls [] r hwf2 hlen2]
            simp
        | dictionary d =>
            have hwfd : d.length % 2 = 0 ∧ wfSeq d = true := by
              have hw := hwf
              unfold wfBencode at hw
              simpa using hw
            have hpe : encodePairs d = encodeSeq d := encodePairs_eq_encodeSeq d hwfd.1
            have hshape : encodeBencode (BencodeValue.dictionary d) ++ r
                = 100 :: (encodeSeq d ++ 101 :: r) := by
              show (100 :: encodePairs d ++ [101]) ++ r = _
              rw [hpe]; simp
            rw [hshape]
            have hdisp : decodeFromReader (fuel + 1) (100 :: (encodeSeq d ++ 101 :: r))
                = decodeDictLoop fuel [] (encodeSeq d ++ 101 :: r) := by
              simp [decodeFromReader]
            rw [hdisp]
            have hlen2 : (encodeSeq d).length + 1 ≤ fuel := by
              have hL : (encodeBencode (BencodeValue.dictionary d)).length
                  = (encodeSeq d).length + 2 := by
                show (100 :: encodePairs d ++ [101]).length = _
                rw [hpe]; simp
              omega
            rw [ihDict d [] r hwfd.2 hwfd.1 hlen2]
            simp
      · -- decodeListLoop on an encoded item sequence
        intro items acc r hwf hlen
        cases items with
        | nil =>
            show decodeListLoop (fuel + 1) acc (encodeSeq [] ++ 101 :: r) = _
            have hnil : encodeSeq ([] : List BencodeValue) ++ 101 :: r = 101 :: r := by
              show ([] : List Nat) ++ 101 :: r = 101 :: r
              simp
            rw [hnil]
            simp [decodeListLoop]
        | cons v vs =>
            obtain ⟨c, t, hct, hc⟩ := encodeBencode_head v
            have hwfv : wfBencode v = true ∧ wfSeq vs = true := by
              have hw := hwf; unfold wfSeq at hw; simpa using hw
            have hshape : encodeSeq (v :: vs) ++ 101 :: r
                = c :: (t ++ (encodeSeq vs ++ 101 :: r)) := by
              show (encodeBencode v ++ encodeSeq vs) ++ 101 :: r = _
              rw [hct]; simp
            rw [hshape]
            have hstep : decodeListLoop (fuel + 1) acc (c :: (t ++ (encodeSeq vs ++ 101 :: r)))
                = (match decodeFromReader fuel (c :: (t ++ (encodeSeq vs ++ 101 :: r))) with
                  | .ok (w, rest2) => decodeListLoop fuel (acc ++ [w]) rest2
                  | .error e => .error e) := by
              simp [decodeListLoop, hc]
            rw [hstep]
            have hseq : (encodeSeq (v :: vs)).length
                = (encodeBencode v).length + (encodeSeq vs).length := by
              show (encodeBencode v ++ encodeSeq vs).length = _
              simp
            have hmain : decodeFromReader fuel (c :: (t ++ (encodeSeq vs ++ 101 :: r)))
                = .ok (v, encodeSeq vs ++ 101 :: r) := by
              have hb : c :: (t ++ (encodeSeq vs ++ 101 :: r))
                  = encodeBencode v ++ (encodeSeq vs ++ 101 :: r) := by
                rw [hct]; simp
              rw [hb]
              exact ihMain v _ hwfv.1 (by omega)
            rw [hmain]
            have hpos := encodeBencode_length_pos v
            show decodeListLoop fuel (acc ++ [v]) (encodeSeq vs ++ 101 :: r)
              = Except.ok (BencodeValue.list (acc ++ v :: vs), r)
            rw [ihList vs (acc ++ [v]) r hwfv.2 (by omega)]
            simp
      · -- decodeDictLoop on an encoded pair sequence
        intro items acc r hwf heven hlen
        match items with
        | [] =>
            show decodeDictLoop (fuel + 1) acc (encodeSeq [] ++ 101 :: r) = _
            have hnil : encodeSeq ([] : List BencodeValue) ++ 101 :: r = 101 :: r := by
              show ([] : List Nat) ++ 101 :: r = 101 :: r
              simp
            rw [hnil]
            simp [decodeDictLoop]
        | [x] => simp at heven
        | k :: v :: vs =>
            obtain ⟨c, t, hct, hc⟩ := encodeBencode_head k
            have hwfk : wfBencode k = true ∧ wfBencode v = true ∧ wfSeq vs = true := by
              have hw := hwf
              unfold wfSeq at hw
              simp only [Bool.and_eq_true] at hw
              have h2 := hw.2
              unfold wfSeq at h2
              simp only [Bool.and_eq_true] at h2
              exact ⟨hw.1, h2.1, h2.2⟩
            have hseq2 : encodeSeq (k :: v :: vs)
                = encodeBencode k ++ (encodeBencode v ++ encodeSeq vs) := by
              show encodeBencode k ++ encodeSeq (v :: vs) = _
              rfl
            have hshape : encodeSeq (k :: v :: vs) ++ 101 :: r
                = c :: (t ++ (encodeBencode v ++ (encodeSeq vs ++ 101 :: r))) := by
              rw [hseq2, hct]; simp
            rw [hshape]
            have hstep : decodeDictLoop (fuel + 1) acc
                (c :: (t ++ (encodeBencode v ++ (encodeSeq vs ++ 101 :: r))))
                = (match decodeFromReader fuel
                      (c :: (t ++ (encodeBencode v ++ (encodeSeq vs ++ 101 :: r)))) with
                  | .ok (kk, rest2) =>
                      match decodeFromReader fuel rest2 with
                      | .ok (vv, rest3) => decodeDictLoop fuel (acc ++ [kk, vv]) rest3
                      | .error e => .error e
                  | .error e => .error e) := by
              simp [decodeDictLoop, hc]
            rw [hstep]
            have hlk := encodeBencode_length_pos k
            have hlv := encodeBencode_length_pos v
            have hseqlen : (encodeSeq (k :: v :: vs)).length
                = (encodeBencode k).length + ((encodeBencode v).length
                  + (encodeSeq vs).length) := by
              rw [hseq2]; simp
            have hmaink : decodeFromReader fuel
                (c :: (t ++ (encodeBencode v ++ (encodeSeq vs ++ 101 :: r))))
                = .ok (k, encodeBencode v ++ (encodeSeq vs ++ 101 :: r)) := by
              have hb : c :: (t ++ (encodeBencode v ++ (encodeSeq vs ++ 101 :: r)))
                  = encodeBencode k ++ (encodeBencode v ++ (encodeSeq vs ++ 101 :: r)) := by
                rw [hct]; simp
              rw [hb]
              exact ihMain k _ hwfk.1 (by omega)
            rw [hmaink]
            have hmainv : decodeFromReader fuel (encodeBencode v ++ (encodeSeq vs ++ 101 :: r))
                = .ok (v, encodeSeq vs ++ 101 :: r) :=
              ihMain v _ hwfk.2.1 (by omega)
            show (match decodeFromReader fuel (encodeBencode v ++ (encodeSeq vs ++ 101 :: r)) with
                | .ok (vv, rest3) => decodeDictLoop fuel (acc ++ [k, vv]) rest3
                | .error e => .error e)
              = Except.ok (BencodeValue.dictionary (acc ++ k :: v :: vs), r)
            rw [hmainv]
            have heven2 : vs.length % 2 = 0 := by
              simp only [List.length_cons] at heven
              omega
            show decodeDictLoop fuel (acc ++ [k, v]) (encodeSeq vs ++ 101 :: r)
              = Except.ok (BencodeValue.dictionary (acc ++ k :: v :: vs), r)
            rw [ihDict vs (acc ++ [k, v]) r hwfk.2.2 heven2 (by omega)]
            simp

/-- Decoding the canonical encoding of a well-formed value recovers it. -/
theorem decode_encodeBencode (v : BencodeValue) (hwf : wfBencode v = true) :
    BencodeValue.decode (encodeBencode v) = .ok v := by
  unfold BencodeValue.decode
  have hmain := (decode_encode_fuel ((encodeBencode v).length + 1)).1 v [] hwf (by omega)
  rw [List.append_nil] at hmain
  rw [hmain]
  simp

/-- Decoding the token `i<decimal>e` built from the canonical rendering of an
in-range `i64` succeeds and yields that integer. -/
theorem decodeInteger_intToAscii (i : Int) (hlo : -(2 ^ 63) ≤ i)
    (hhi : i ≤ 2 ^ 63 - 1) (r : List Nat) :
    decodeInteger (105 :: (intToAscii i ++ 101 :: r)) = .ok (.integer i, r) := by
  unfold decodeInteger
  simp only [List.tail_cons]
  rw [takeWhile_all_append _ _ _
    (fun a ha => by simp only [decide_eq_true_eq]; exact intToAscii_ne_e i a ha)]
  have h101 : (101 :: r).takeWhile (fun b => b ≠ 101) = [] := by
    simp [List.takeWhile_cons]
  rw [h101, List.append_nil]
  simp only [List.drop_left]
  rw [parseI64_intToAscii i hlo hhi]

/-- Claim C3, counterexample: the byte string `i-0e` decodes successfully (to
the integer 0), yet re-encoding that value yields `i0e`, which differs from
the input; so encode–decode is not the identity on all decodable inputs. -/
theorem C3_counterexample :
    BencodeValue.decode [105, 45, 48, 101] = .ok (.integer 0)
    ∧ encodeBencode (.integer 0) = [105, 48, 101]
    ∧ [105, 48, 101] ≠ [105, 45, 48, 101] := by
  refine ⟨rfl, rfl, by decide⟩

/-- Claim C3 (amended): for every byte string x that is the canonical encoding
of a well-formed Bencode value (integers in the `i64` range, byte-string
lengths in the `usize` range, dictionaries with evenly many entries), if x
decodes successfully then re-encoding the decoded value yields exactly x.
The original claim fails on decodable inputs whose integer tokens are
non-canonical (leading zeros or `-0`), such as `i-0e`. -/
theorem C3_bencode_roundtrip (x : List Nat) (w : BencodeValue)
    (hwf : wfBencode w = true) (hx : x = encodeBencode w)
    (v : BencodeValue) (hdec : BencodeValue.decode x = .ok v) :
    encodeBencode v = x := by
  subst hx
  rw [decode_encodeBencode w hwf] at hdec
  cases hdec
  rfl

/-- Claim C3 witness: the spec's own example `d3:cow3:mooe` round-trips. -/
theorem C3_bencode_roundtrip_witness :
    ∃ v, BencodeValue.decode [100, 51, 58, 99, 111, 119, 51, 58, 109, 111, 111, 101]
        = .ok v
      ∧ encodeBencode v = [100, 51, 58, 99, 111, 119, 51, 58, 109, 111, 111, 101] :=
  ⟨.dictionary [.bytes [99, 111, 119], .bytes [109, 111, 111]], rfl,
    C3_bencode_roundtrip _ (.dictionary [.bytes [99, 111, 119], .bytes [109, 111, 111]])
      rfl rfl _ rfl⟩

/-- Claim C4, counterexample: the integer decoder does not reject `i-0e` (it
returns the integer 0) and does not reject leading zeros on a non-zero value
(`i042e` returns 42), because the source delegates to Rust's `i64` parser. -/
theorem C4_counterexample :
    decodeInteger [105, 45, 48, 101] = .ok (.integer 0, [])
    ∧ decodeInteger [105, 48, 52, 50, 101] = .ok (.integer 42, []) := by
  exact ⟨rfl, rfl⟩

/-- Claim C4 (amended): the bencode integer decoder accepts
`i<signed-decimal>e` for every canonical in-range signed 64-bit decimal, and
rejects an empty digit run (`ie`, `i-e`); but it does not reject leading
zeros on non-zero values, nor `i-0e` — those parse as their numeric value,
exactly as Rust's `i64` parser treats them. -/
theorem C4_integer_decoder (i : Int) (hlo : -(2 ^ 63) ≤ i) (hhi : i ≤ 2 ^ 63 - 1) :
    (∀ r, decodeInteger (105 :: (intToAscii i ++ 101 :: r)) = .ok (.integer i, r))
    ∧ decodeInteger [105, 101] = .error "Invalid integer format"
    ∧ decodeInteger [105, 45, 101] = .error "Invalid integer format"
    ∧ decodeInteger [105, 45, 48, 101] = .ok (.integer 0, [])
    ∧ decodeInteger [105, 48, 52, 50, 101] = .ok (.integer 42, []) := by
  exact ⟨fun r => decodeInteger_intToAscii i hlo hhi r, rfl, rfl, rfl, rfl⟩

/-- Claim C4 witness: the amended decoder facts at the concrete input -5. -/
theorem C4_integer_decoder_witness :
    decodeInteger [105, 45, 53, 101] = .ok (.integer (-5), []) := by
  have h := (C4_integer_decoder (-5) (by decide) (by decide)).1 []
  exact h

/-!  ## Piece state machine (src/net/piece_manager.rs)  -/

/-- Standard BitTorrent block size (16KB), `BLOCK_SIZE` in the source. -/
def BLOCK_SIZE : Nat := 16 * 1024

/-- Maximum number of pending requests, `MAX_PENDING_REQUESTS` in the source. -/
def MAX_PENDING_REQUESTS : Nat := 10

/-- Request timeout, `REQUEST_TIMEOUT` in the source (30 s), measured in the
same second ticks as the modelled `Instant`s. -/
def REQUEST_TIMEOUT : Nat := 30

/-- The `BlockInfo` struct. -/
structure BlockInfo where
  pieceIndex : Nat
  begin : Nat
  length : Nat
  deriving DecidableEq

/-- The `Block` struct: a `BlockInfo` plus data and receipt timestamp. -/
structure Block where
  info : BlockInfo
  data : List Nat
  receivedAt : Nat
  deriving DecidableEq

/-- The `PieceState` enum. -/
inductive PieceState : Type where
  | pending
  | inProgress
  | complete
  | verified
  | failed
  deriving DecidableEq

/-- The `Piece` struct. `blocks` models the `HashMap<usize, Block>` as an
association list in insertion order; `missing_blocks` models the
`HashSet<BlockInfo>` as a duplicate-free list; `requested_blocks` models the
`HashMap<BlockInfo, Instant>` as an association list. -/
structure Piece where
  index : Nat
  length : Nat
  hash : List Nat
  state : PieceState
  blocks : List (Nat × Block)
  missingBlocks : List BlockInfo
  requestedBlocks : List (BlockInfo × Nat)
  downloadStart : Option Nat
  downloadComplete : Option Nat
  deriving DecidableEq

/-- `HashMap::insert` on the blocks map: replace any entry with the same key,
appending a fresh key. -/
def insertBlockEntry (m : List (Nat × Block)) (k : Nat) (b : Block) : List (Nat × Block) :=
  m.filter (fun e => e.1 ≠ k) ++ [(k, b)]

/-- `HashMap::remove` on the requested map. -/
def removeRequested (m : List (BlockInfo × Nat)) (k : BlockInfo) : List (BlockInfo × Nat) :=
  m.filter (fun e => e.1 ≠ k)

/-- `HashMap::insert` on the requested map. -/
def insertRequested (m : List (BlockInfo × Nat)) (k : BlockInfo) (t : Nat) :
    List (BlockInfo × Nat) :=
  removeRequested m k ++ [(k, t)]

/-- `HashSet::insert` on the missing set. -/
def insertMissing (s : List BlockInfo) (b : BlockInfo) : List BlockInfo :=
  if b ∈ s then s else s ++ [b]

/-- `HashSet::remove` on the missing set. -/
def removeMissing (s : List BlockInfo) (b : BlockInfo) : List BlockInfo :=
  s.filter (fun x => x ≠ b)

/-- The block-population loop shared by `Piece::new` and `Piece::reset`:
one `BlockInfo` per 16 KiB chunk, the final chunk shortened to the piece
end. -/
def initialMissingBlocks (index length : Nat) : List BlockInfo :=
  let numBlocks := (length + BLOCK_SIZE - 1) / BLOCK_SIZE
  (List.range numBlocks).map (fun i =>
    { pieceIndex := index
      begin := i * BLOCK_SIZE
      length := if i = numBlocks - 1 then length - i * BLOCK_SIZE else BLOCK_SIZE })

/-- `Piece::new`. -/
def Piece.new (index length : Nat) (hash : List Nat) : Piece :=
  { index := index
    length := length
    hash := hash
    state := .pending
    blocks := []
    missingBlocks := initialMissingBlocks index length
    requestedBlocks := []
    downloadStart := none
    downloadComplete := none }

/-- `Piece::is_complete`: the missing set is empty and the number of received
blocks times `BLOCK_SIZE` is at least the piece length. -/
def Piece.isComplete (p : Piece) : Bool :=
  p.missingBlocks.isEmpty && decide (p.blocks.length * BLOCK_SIZE ≥ p.length)

/-- The timeout-reaping first half of `Piece::get_next_block_request`:
every requested block whose request is older than `REQUEST_TIMEOUT` is
removed from the requested map and reinserted into the missing set. -/
def Piece.reapTimeouts (p : Piece) (now : Nat) : Piece :=
  let timedOut :=
    (p.requestedBlocks.filter (fun e => now - e.2 > REQUEST_TIMEOUT)).map (fun e => e.1)
  { p with
    requestedBlocks := timedOut.foldl removeRequested p.requestedBlocks
    missingBlocks := timedOut.foldl insertMissing p.missingBlocks }

/-- `Piece::get_next_block_request`: reap timeouts, then take the first
missing block if fewer than `MAX_PENDING_REQUESTS` requests are pending,
moving it into the requested map stamped `now`. -/
def Piece.getNextBlockRequest (p : Piece) (now : Nat) : Option BlockInfo × Piece :=
  let p2 := p.reapTimeouts now
  match p2.missingBlocks.head? with
  | some b =>
      if p2.requestedBlocks.length < MAX_PENDING_REQUESTS then
        (some b,
          { p2 with
            missingBlocks := removeMissing p2.missingBlocks b
            requestedBlocks := insertRequested p2.requestedBlocks b now })
      else (none, p2)
  | none => (none, p2)

/-- `Piece::add_block`: validate index and extent, drop the block from the
requested map, store it keyed by `begin`, and mark the piece `Complete` when
`is_complete` holds. -/
def Piece.addBlock (p : Piece) (b : Block) (now : Nat) : Except String Piece :=
  if b.info.pieceIndex ≠ p.index then
    .error "Block index is not equal to pieces index"
  else if b.info.begin + b.data.length > p.length then
    .error "Block exceeds Piece Size"
  else
    let p1 := { p with
      requestedBlocks := removeRequested p.requestedBlocks b.info
      blocks := insertBlockEntry p.blocks b.info.begin b
      downloadStart := some now }
    if p1.isComplete then
      .ok { p1 with downloadComplete := some now, state := .complete }
    else
      .ok p1

/-- Writing `data` over `buf` starting at `off`, keeping the rest: the model
of `piece_data[begin..end].copy_from_slice(&block.data)` (callers establish
`off + data.length ≤ buf.length`). -/
def listOverwrite (buf : List Nat) (off : Nat) (data : List Nat) : List Nat :=
  buf.take off ++ data ++ buf.drop (off + data.length)

/-- The `piece_data[*begin..end].copy_from_slice(&block.data)` body of the
assembly loop. -/
def assembleStep (buf : List Nat) (e : Nat × Block) : List Nat :=
  listOverwrite buf e.1 e.2.data

/-- `Piece::assemble_piece`: requires `is_complete`, then copies every stored
block at its `begin` offset into a zeroed buffer of the piece length,
erroring only when a block extends past the piece end. -/
def Piece.assemblePiece (p : Piece) : Except String (List Nat) :=
  if ¬ p.isComplete then .error "Piece is not Complete"
  else
    p.blocks.foldlM
      (fun buf e =>
        if e.1 + e.2.data.length > p.length then .error "Block exceeds piece length"
        else .ok (assembleStep buf e))
      (List.replicate p.length 0)

/-- `Piece::verify_hash` with the SHA-1 implementation as a parameter. -/
def Piece.verifyHash (sha1 : List Nat → List Nat) (p : Piece) (data : List Nat) : Bool :=
  sha1 data = p.hash

/-- `Piece::reset`: back to `Pending` with cleared maps and a freshly rebuilt
missing set (the source repeats the same population loop as `Piece::new`). -/
def Piece.reset (p : Piece) : Piece :=
  { p with
    state := .pending
    blocks := []
    requestedBlocks := []
    downloadStart := none
    downloadComplete := none
    missingBlocks := initialMissingBlocks p.index p.length }

/-- Claim C2, counterexample: starting from a fresh one-block piece of length
16384, requesting the block (emptying the missing set) and then ingesting a
100-byte block at offset 0 sets the state to `Complete` even though the sum
of received block lengths is 100 ≠ 16384, because `is_complete` tests
`blocks.len() * BLOCK_SIZE >= length` rather than the sum of block lengths. -/
theorem C2_counterexample :
    ((Piece.new 0 16384 [0]).getNextBlockRequest 0).2.addBlock
      { info := ⟨0, 0, 100⟩, data := List.replicate 100 7, receivedAt := 1 } 1
      = .ok { index := 0, length := 16384, hash := [0], state := .complete,
              blocks := [(0, { info := ⟨0, 0, 100⟩, data := List.replicate 100 7,
                               receivedAt := 1 })],
              missingBlocks := [], requestedBlocks := [(⟨0, 0, 16384⟩, 0)],
              downloadStart := some 1, downloadComplete := some 1 }
    ∧ (([(0, { info := ⟨0, 0, 100⟩, data := List.replicate 100 7, receivedAt := 1 })]
        : List (Nat × Block)).map (fun e => e.2.data.length)).sum = 100 := by
  exact ⟨rfl, rfl⟩

/-- Claim C2 (amended): after a successful `add_block`, the piece state is
`Complete` iff either the missing set is empty and the number of received
blocks times `BLOCK_SIZE` is at least the piece length (the code's
`is_complete` test — not the spec's sum-of-block-lengths condition), or the
state was already `Complete` beforehand. -/
theorem C2_add_block_complete (p : Piece) (b : Block) (now : Nat) (p2 : Piece)
    (h : p.addBlock b now = .ok p2) :
    p2.state = .complete ↔
      ((p2.missingBlocks = [] ∧ p2.blocks.length * BLOCK_SIZE ≥ p2.length)
        ∨ p.state = .complete) := by
  unfold Piece.addBlock at h
  by_cases h1 : b.info.pieceIndex ≠ p.index
  · rw [if_pos h1] at h; exact absurd h (by simp)
  rw [if_neg h1] at h
  by_cases h2 : b.info.begin + b.data.length > p.length
  · rw [if_pos h2] at h; exact absurd h (by simp)
  rw [if_neg h2] at h
  simp only at h
  set p1 : Piece := { p with
      requestedBlocks := removeRequested p.requestedBlocks b.info
      blocks := insertBlockEntry p.blocks b.info.begin b
      downloadStart := some now } with hp1
  by_cases hc : p1.isComplete
  · rw [if_pos hc] at h
    have hp2 : p2 = { p1 with downloadComplete := some now, state := .complete } :=
      (Except.ok.inj h).symm
    subst hp2
    have hc2 : p1.missingBlocks = [] ∧ p1.blocks.length * BLOCK_SIZE ≥ p1.length := by
      unfold Piece.isComplete at hc
      simp only [Bool.and_eq_true, decide_eq_true_eq, List.isEmpty_iff] at hc
      exact hc
    simp only [hp1] at hc2 ⊢
    simp [hc2.1, hc2.2]
  · rw [if_neg hc] at h
    have hp2 : p2 = p1 := (Except.ok.inj h).symm
    subst hp2
    have hc2 : ¬ (p1.missingBlocks = [] ∧ p1.blocks.length * BLOCK_SIZE ≥ p1.length) := by
      intro hcontra
      apply hc
      unfold Piece.isComplete
      simp only [Bool.and_eq_true, decide_eq_true_eq, List.isEmpty_iff]
      exact hcontra
    constructor
    · intro hs
      right
      simpa [hp1] using hs
    · intro hs
      rcases hs with hs | hs
      · exact absurd hs hc2
      · simpa [hp1] using hs

/-- Claim C2 witness: ingesting the single full block of a one-block piece
whose missing set is already empty produces state `Complete`, matching the
amended equivalence at that concrete input. -/
theorem C2_add_block_complete_witness :
    ∃ p2, Piece.addBlock
        { index := 0, length := 2, hash := [0], state := .pending, blocks := [],
          missingBlocks := [], requestedBlocks := [(⟨0, 0, 2⟩, 0)],
          downloadStart := none, downloadComplete := none }
        { info := ⟨0, 0, 2⟩, data := [5, 6], receivedAt := 1 } 1 = .ok p2
      ∧ (p2.state = .complete ↔
          ((p2.missingBlocks = [] ∧ p2.blocks.length * BLOCK_SIZE ≥ p2.length)
            ∨ (PieceState.pending = .complete))) := by
  refine ⟨{ index := 0, length := 2, hash := [0], state := .complete,
            blocks := [(0, { info := ⟨0, 0, 2⟩, data := [5, 6], receivedAt := 1 })],
            missingBlocks := [], requestedBlocks := [],
            downloadStart := some 1, downloadComplete := some 1 }, rfl, ?_⟩
  exact C2_add_block_complete
    { index := 0, length := 2, hash := [0], state := .pending, blocks := [],
      missingBlocks := [], requestedBlocks := [(⟨0, 0, 2⟩, 0)],
      downloadStart := none, downloadComplete := none }
    { info := ⟨0, 0, 2⟩, data := [5, 6], receivedAt := 1 } 1 _ rfl

theorem listOverwrite_length (buf data : List Nat) (off : Nat)
    (h : off + data.length ≤ buf.length) :
    (listOverwrite buf off data).length = buf.length := by
  unfold listOverwrite
  simp only [List.length_append, List.length_take, List.length_drop]
  omega

theorem listOverwrite_getElem_inside (buf data : List Nat) (off j : Nat)
    (h : off + data.length ≤ buf.length) (hj : j < data.length) :
    (listOverwrite buf off data)[off + j]? = data[j]? := by
  unfold listOverwrite
  rw [List.append_assoc]
  have htake : (buf.take off).length = off := by
    rw [List.length_take]
    omega
  rw [List.getElem?_append]
  rw [if_neg (by omega)]
  rw [htake]
  have hidx : off + j - off = j := by omega
  rw [hidx]
  rw [List.getElem?_append]
  rw [if_pos hj]

theorem listOverwrite_getElem_outside (buf data : List Nat) (off j : Nat)
    (h : off + data.length ≤ buf.length) (hout : j < off ∨ off + data.length ≤ j) :
    (listOverwrite buf off data)[j]? = buf[j]? := by
  unfold listOverwrite
  rw [List.append_assoc]
  have htake : (buf.take off).length = off := by
    rw [List.length_take]
    omega
  rcases hout with hlt | hge
  · rw [List.getElem?_append, if_pos (by omega)]
    rw [List.getElem?_take, if_pos hlt]
  · rw [List.getElem?_append, if_neg (by omega), htake]
    rw [List.getElem?_append, if_neg (by omega), List.getElem?_drop]
    have hidx : off + data.length + (j - off - data.length) = j := by omega
    rw [hidx]

theorem assembleFoldM_ok (L : Nat) :
    ∀ (blocks : List (Nat × Block)) (buf : List Nat),
      (∀ e ∈ blocks, e.1 + e.2.data.length ≤ L) →
      (blocks.foldlM
        (fun buf e =>
          if e.1 + e.2.data.length > L then
            (.error "Block exceeds piece length" : Except String (List Nat))
          else .ok (assembleStep buf e))
        buf)
        = .ok (blocks.foldl assembleStep buf) := by
  intro blocks
  induction blocks with
  | nil => intro buf _; rfl
  | cons e rest ih =>
      intro buf hfits
      have hfit : e.1 + e.2.data.length ≤ L := hfits e (List.mem_cons_self e rest)
      rw [List.foldlM_cons, if_neg (by omega)]
      show (rest.foldlM _ (assembleStep buf e)) = _
      rw [ih (assembleStep buf e) (fun x hx => hfits x (List.mem_cons_of_mem e hx))]
      rfl

theorem assembleFoldl_length (L : Nat) :
    ∀ (blocks : List (Nat × Block)) (buf : List Nat),
      (∀ e ∈ blocks, e.1 + e.2.data.length ≤ L) → buf.length = L →
      (blocks.foldl assembleStep buf).length = L := by
  intro blocks
  induction blocks with
  | nil => intro buf _ h; exact h
  | cons e rest ih =>
      intro buf hfits hlen
      rw [List.foldl_cons]
      refine ih (assembleStep buf e) (fun x hx => hfits x (List.mem_cons_of_mem e hx)) ?_
      simp only [assembleStep]
      rw [listOverwrite_length]
      · exact hlen
      · rw [hlen]
        exact hfits e (List.mem_cons_self e rest)

theorem assembleFoldl_untouched (L : Nat) :
    ∀ (blocks : List (Nat × Block)) (buf : List Nat) (j : Nat),
      (∀ e ∈ blocks, e.1 + e.2.data.length ≤ L) → buf.length = L →
      (∀ e ∈ blocks, j < e.1 ∨ e.1 + e.2.data.length ≤ j) →
      (blocks.foldl assembleStep buf)[j]? = buf[j]? := by
  intro blocks
  induction blocks with
  | nil => intro buf j _ _ _; rfl
  | cons e rest ih =>
      intro buf j hfits hlen hout
      rw [List.foldl_cons]
      have hfit : e.1 + e.2.data.length ≤ buf.length := by
        rw [hlen]; exact hfits e (List.mem_cons_self e rest)
      rw [ih (assembleStep buf e) j
        (fun x hx => hfits x (List.mem_cons_of_mem e hx))
        (by simp only [assembleStep]; rw [listOverwrite_length _ _ _ hfit]; exact hlen)
        (fun x hx => hout x (List.mem_cons_of_mem e hx))]
      exact listOverwrite_getElem_outside buf e.2.data e.1 j hfit
        (hout e (List.mem_cons_self e rest))

/-- Claim C7, counterexample: a piece that has received a full 300-byte block
at offset 0 and then an overlapping 100-byte block at offset 100 (both
accepted by `add_block`) assembles successfully — `assemble_piece` does not
fail on overlapping blocks; the overlapping range is silently overwritten
(byte 100 of the result comes from the later block). -/
theorem C7_counterexample :
    ((Piece.new 0 300 [0]).getNextBlockRequest 0).2.addBlock
      { info := ⟨0, 0, 300⟩, data := List.replicate 300 1, receivedAt := 1 } 1
      = .ok { index := 0, length := 300, hash := [0], state := .complete,
              blocks := [(0, { info := ⟨0, 0, 300⟩, data := List.replicate 300 1,
                               receivedAt := 1 })],
              missingBlocks := [], requestedBlocks := [],
              downloadStart := some 1, downloadComplete := some 1 }
    ∧ Piece.addBlock
        { index := 0, length := 300, hash := [0], state := .complete,
          blocks := [(0, { info := ⟨0, 0, 300⟩, data := List.replicate 300 1,
                           receivedAt := 1 })],
          missingBlocks := [], requestedBlocks := [],
          downloadStart := some 1, downloadComplete := some 1 }
        { info := ⟨0, 100, 100⟩, data := List.replicate 100 2, receivedAt := 2 } 2
      = .ok { index := 0, length := 300, hash := [0], state := .complete,
              blocks := [(0, { info := ⟨0, 0, 300⟩, data := List.replicate 300 1,
                               receivedAt := 1 }),
                         (100, { info := ⟨0, 100, 100⟩, data := List.replicate 100 2,
                                 receivedAt := 2 })],
              missingBlocks := [], requestedBlocks := [],
              downloadStart := some 2, downloadComplete := some 2 }
    ∧ Piece.assemblePiece
        { index := 0, length := 300, hash := [0], state := .complete,
          blocks := [(0, { info := ⟨0, 0, 300⟩, data := List.replicate 300 1,
                           receivedAt := 1 }),
                     (100, { info := ⟨0, 100, 100⟩, data := List.replicate 100 2,
                             receivedAt := 2 })],
          missingBlocks := [], requestedBlocks := [],
          downloadStart := some 2, downloadComplete := some 2 }
      = .ok (List.replicate 100 1 ++ (List.replicate 100 2 ++ List.replicate 100 1)) := by
  exact ⟨rfl, rfl, rfl⟩

/-- Claim C7 (amended): `assemble_piece` requires `is_complete` (else it
errors), and for blocks that all lie within the piece it returns a buffer of
exactly `length` bytes in which each block's bytes appear at its `begin`
offset wherever no later-stored block overwrites them; overlapping blocks
are NOT an error — later blocks silently overwrite earlier ones. -/
theorem C7_assemble (p : Piece) :
    (p.isComplete = false → p.assemblePiece = .error "Piece is not Complete")
    ∧ (p.isComplete = true →
        (∀ e ∈ p.blocks, e.1 + e.2.data.length ≤ p.length) →
        ∃ buf, p.assemblePiece = .ok buf
          ∧ buf.length = p.length
          ∧ ∀ pre e post, p.blocks = pre ++ e :: post →
              ∀ j, j < e.2.data.length →
              (∀ e2 ∈ post, e.1 + j < e2.1 ∨ e2.1 + e2.2.data.length ≤ e.1 + j) →
              buf[e.1 + j]? = e.2.data[j]?) := by
  constructor
  · intro hF
    unfold Piece.assemblePiece
    rw [if_pos (by simp [hF])]
  · intro hT hfits
    refine ⟨p.blocks.foldl assembleStep (List.replicate p.length 0), ?_, ?_, ?_⟩
    · unfold Piece.assemblePiece
      rw [if_neg (by simp [hT])]
      exact assembleFoldM_ok p.length p.blocks (List.replicate p.length 0) hfits
    · exact assembleFoldl_length p.length p.blocks _ hfits (List.length_replicate _ _)
    · intro pre e post hdecomp j hj hpost
      rw [hdecomp]
      rw [List.foldl_append, List.foldl_cons]
      have hfits' : ∀ x ∈ pre, x.1 + x.2.data.length ≤ p.length := by
        intro x hx
        exact hfits x (by rw [hdecomp]; exact List.mem_append_left _ hx)
      have hfite : e.1 + e.2.data.length ≤ p.length :=
        hfits e (by rw [hdecomp]; exact List.mem_append_right _ (List.mem_cons_self e post))
      have hfitpost : ∀ x ∈ post, x.1 + x.2.data.length ≤ p.length := by
        intro x hx
        exact hfits x (by
          rw [hdecomp]
          exact List.mem_append_right _ (List.mem_cons_of_mem e hx))
      have hlenpre : (pre.foldl assembleStep (List.replicate p.length 0)).length
          = p.length :=
        assembleFoldl_length p.length pre _ hfits' (List.length_replicate _ _)
      have hlen1 : (assembleStep (pre.foldl assembleStep (List.replicate p.length 0)) e).length
          = p.length := by
        simp only [assembleStep]
        rw [listOverwrite_length _ _ _ (by rw [hlenpre]; exact hfite)]
        exact hlenpre
      rw [assembleFoldl_untouched p.length post _ (e.1 + j) hfitpost hlen1 hpost]
      exact listOverwrite_getElem_inside _ _ _ _ (by rw [hlenpre]; exact hfite) hj

/-- Claim C7 witness: assembling a complete one-block piece of length 2
yields a 2-byte buffer carrying the block's bytes at its offset. -/
theorem C7_assemble_witness :
    ∃ buf, Piece.assemblePiece
        { index := 0, length := 2, hash := [0], state := .complete,
          blocks := [(0, { info := ⟨0, 0, 2⟩, data := [5, 6], receivedAt := 1 })],
          missingBlocks := [], requestedBlocks := [],
          downloadStart := some 1, downloadComplete := some 1 }
        = .ok buf
      ∧ buf.length = 2 ∧ buf[0]? = some 5 := by
  obtain ⟨buf, hok, hlen, hpos⟩ :=
    (C7_assemble
      { index := 0, length := 2, hash := [0], state := .complete,
        blocks := [(0, { info := ⟨0, 0, 2⟩, data := [5, 6], receivedAt := 1 })],
        missingBlocks := [], requestedBlocks := [],
        downloadStart := some 1, downloadComplete := some 1 }).2
      (by decide) (by decide)
  refine ⟨buf, hok, hlen, ?_⟩
  have h0 := hpos [] (0, { info := ⟨0, 0, 2⟩, data := [5, 6], receivedAt := 1 }) []
    rfl 0 (by decide) (by simp)
  simpa using h0

theorem not_mem_map_fst_removeRequested (m : List (BlockInfo × Nat)) (k : BlockInfo) :
    k ∉ (removeRequested m k).map (fun e => e.1) := by
  intro hmem
  simp only [removeRequested, List.mem_map, List.mem_filter] at hmem
  obtain ⟨e, ⟨-, hne⟩, rfl⟩ := hmem
  simp at hne

theorem not_mem_map_fst_removeRequested_of_not_mem (m : List (BlockInfo × Nat))
    (k b : BlockInfo) (h : b ∉ m.map (fun e => e.1)) :
    b ∉ (removeRequested m k).map (fun e => e.1) := by
  intro hmem
  apply h
  simp only [removeRequested, List.mem_map, List.mem_filter] at hmem ⊢
  obtain ⟨e, ⟨he, -⟩, rfl⟩ := hmem
  exact ⟨e, he, rfl⟩

theorem not_mem_foldl_removeRequested (rem : List BlockInfo) :
    ∀ (m : List (BlockInfo × Nat)) (b : BlockInfo),
      b ∉ m.map (fun e => e.1) →
      b ∉ (rem.foldl removeRequested m).map (fun e => e.1) := by
  induction rem with
  | nil => intro m b h; exact h
  | cons a rest ih =>
      intro m b h
      rw [List.foldl_cons]
      exact ih _ b (not_mem_map_fst_removeRequested_of_not_mem m a b h)

theorem mem_foldl_removeRequested_erased (rem : List BlockInfo) :
    ∀ (m : List (BlockInfo × Nat)) (b : BlockInfo), b ∈ rem →
      b ∉ (rem.foldl removeRequested m).map (fun e => e.1) := by
  induction rem with
  | nil => intro m b h; simp at h
  | cons a rest ih =>
      intro m b h
      rw [List.foldl_cons]
      rcases List.mem_cons.mp h with rfl | hb
      · exact not_mem_foldl_removeRequested rest _ b
          (not_mem_map_fst_removeRequested m b)
      · exact ih _ b hb

theorem mem_insertMissing (s : List BlockInfo) (a b : BlockInfo)
    (h : b ∈ s ∨ b = a) : b ∈ insertMissing s a := by
  unfold insertMissing
  rcases h with h | rfl
  · split
    · exact h
    · exact List.mem_append_left _ h
  · split
    · assumption
    · exact List.mem_append_right _ (List.mem_cons_self b [])

theorem mem_foldl_insertMissing (toIns : List BlockInfo) :
    ∀ (s : List BlockInfo) (b : BlockInfo), b ∈ s ∨ b ∈ toIns →
      b ∈ toIns.foldl insertMissing s := by
  induction toIns with
  | nil =>
      intro s b h
      rcases h with h | h
      · exact h
      · simp at h
  | cons a rest ih =>
      intro s b h
      rw [List.foldl_cons]
      rcases h with h | h
      · exact ih _ b (Or.inl (mem_insertMissing s a b (Or.inl h)))
      · rcases List.mem_cons.mp h with rfl | hb
        · exact ih _ b (Or.inl (mem_insertMissing s b b (Or.inr rfl)))
        · exact ih _ b (Or.inr hb)

theorem reapTimeouts_removes (p : Piece) (now : Nat) (b : BlockInfo) (t : Nat)
    (hmem : (b, t) ∈ p.requestedBlocks) (htime : now - t > REQUEST_TIMEOUT) :
    b ∉ ((p.reapTimeouts now).requestedBlocks.map (fun e => e.1))
    ∧ b ∈ (p.reapTimeouts now).missingBlocks := by
  have hto : b ∈ (p.requestedBlocks.filter
      (fun e => now - e.2 > REQUEST_TIMEOUT)).map (fun e => e.1) := by
    simp only [List.mem_map, List.mem_filter]
    exact ⟨(b, t), ⟨hmem, by simpa using htime⟩, rfl⟩
  constructor
  · exact mem_foldl_removeRequested_erased _ _ b hto
  · exact mem_foldl_insertMissing _ _ b (Or.inr hto)

/-- Claim C9: in `get_next_block_request(now)`, every requested block whose
timestamp `t` satisfies `now − t > REQUEST_TIMEOUT` (30 s) is removed from
the requested map and reinserted into the missing set before selection; it
is therefore eligible for re-issue — afterwards it is either the very block
returned (freshly requested at `now`) or still sitting in the missing set
and absent from the requested map. -/
theorem C9_timeout_requeue (p : Piece) (now : Nat) (b : BlockInfo) (t : Nat)
    (hmem : (b, t) ∈ p.requestedBlocks) (htime : now - t > REQUEST_TIMEOUT) :
    (b ∉ ((p.reapTimeouts now).requestedBlocks.map (fun e => e.1))
      ∧ b ∈ (p.reapTimeouts now).missingBlocks)
    ∧ (((p.getNextBlockRequest now).1 = some b
        ∧ (b, now) ∈ (p.getNextBlockRequest now).2.requestedBlocks)
      ∨ (b ∉ ((p.getNextBlockRequest now).2.requestedBlocks.map (fun e => e.1))
        ∧ b ∈ (p.getNextBlockRequest now).2.missingBlocks)) := by
  obtain ⟨hnotreq, hmiss⟩ := reapTimeouts_removes p now b t hmem htime
  refine ⟨⟨hnotreq, hmiss⟩, ?_⟩
  unfold Piece.getNextBlockRequest
  rcases hhead : (p.reapTimeouts now).missingBlocks.head? with _ | b2
  · rw [List.head?_eq_none_iff] at hhead
    rw [hhead] at hmiss
    simp at hmiss
  · simp only [hhead]
    by_cases hroom : (p.reapTimeouts now).requestedBlocks.length < MAX_PENDING_REQUESTS
    · rw [if_pos hroom]
      by_cases heq : b2 = b
      · subst heq
        left
        refine ⟨rfl, ?_⟩
        simp only [insertRequested]
        exact List.mem_append_right _ (List.mem_cons_self _ [])
      · right
        constructor
        · simp only [insertRequested, List.map_append]
          intro hcontra
          rcases List.mem_append.mp hcontra with hl | hr
          · exact not_mem_map_fst_removeRequested_of_not_mem _ b2 b hnotreq hl
          · simp at hr
            exact heq hr.symm
        · simp only [removeMissing, List.mem_filter]
          refine ⟨hmiss, by simpa using fun hcontra => heq hcontra.symm⟩
    · rw [if_neg hroom]
      exact Or.inr ⟨hnotreq, hmiss⟩

/-- Claim C9 witness: with one request stamped at time 0 and `now = 31`, the
timed-out block is reaped and immediately re-issued. -/
theorem C9_timeout_requeue_witness :
    (let p : Piece :=
       { index := 0, length := 16384, hash := [0], state := .inProgress,
         blocks := [], missingBlocks := [], requestedBlocks := [(⟨0, 0, 16384⟩, 0)],
         downloadStart := none, downloadComplete := none }
     ((⟨0, 0, 16384⟩ : BlockInfo) ∉ ((p.reapTimeouts 31).requestedBlocks.map (fun e => e.1))
        ∧ (⟨0, 0, 16384⟩ : BlockInfo) ∈ (p.reapTimeouts 31).missingBlocks)
      ∧ (((p.getNextBlockRequest 31).1 = some ⟨0, 0, 16384⟩
          ∧ ((⟨0, 0, 16384⟩ : BlockInfo), 31) ∈ (p.getNextBlockRequest 31).2.requestedBlocks)
        ∨ ((⟨0, 0, 16384⟩ : BlockInfo) ∉ ((p.getNextBlockRequest 31).2.requestedBlocks.map (fun e => e.1))
          ∧ (⟨0, 0, 16384⟩ : BlockInfo) ∈ (p.getNextBlockRequest 31).2.missingBlocks))) := by
  exact C9_timeout_requeue _ 31 ⟨0, 0, 16384⟩ 0 (List.mem_cons_self _ []) (by decide)

/-!  ## File map & storage (src/storage/files.rs)  -/

/-- The `TorrentFile` struct of `src/protocol/torrent.rs`. -/
structure TorrentFile where
  path : List String
  length : Nat
  deriving DecidableEq

/-- The `Torrent` struct of `src/protocol/torrent.rs` (the fields the storage
and coordinator layers consume). -/
structure Torrent where
  announce : String
  infoHash : List Nat
  pieceLength : Nat
  pieces : List (List Nat)
  name : String
  length : Nat
  files : Option (List TorrentFile)
  deriving DecidableEq

/-- The `FileMapping` struct. Paths are modelled as component lists. -/
structure FileMapping where
  path : List String
  startOffset : Nat
  length : Nat
  isComplete : Bool
  deriving DecidableEq

/-- The multi-file loop of `FileStorage::build_file_map`, accumulating the
running prefix-sum offset. -/
def buildFileMapLoop (baseDir : List String) : List TorrentFile → Nat → List FileMapping
  | [], _ => []
  | f :: rest, currentOffset =>
      { path := baseDir ++ f.path
        startOffset := currentOffset
        length := f.length
        isComplete := false }
        :: buildFileMapLoop baseDir rest (currentOffset + f.length)

/-- `FileStorage::build_file_map`: one mapping per declared file with
prefix-sum start offsets under `download_dir/name`, or a single mapping at
offset 0 for a single-file torrent. -/
def buildFileMap (torrent : Torrent) (downloadDir : List String) : List FileMapping :=
  match torrent.files with
  | some files => buildFileMapLoop (downloadDir ++ [torrent.name]) files 0
  | none =>
      [{ path := downloadDir ++ [torrent.name]
         startOffset := 0
         length := torrent.length
         isComplete := false }]

/-- `FileStorage::get_affected_files`: every mapping whose span intersects
`[start, e)`, with the clamped overlap bounds (the source returns
`Result` but never fails). -/
def getAffectedFiles (fileMap : List FileMapping) (start e : Nat) :
    List (FileMapping × Nat × Nat) :=
  fileMap.filterMap (fun m =>
    if start < m.startOffset + m.length ∧ e > m.startOffset then
      some (m, max start m.startOffset, min e (m.startOffset + m.length))
    else none)

/-- The modelled file system: file contents keyed by path. -/
abbrev Fs : Type := List (List String × List Nat)

/-- File lookup in the modelled file system. -/
def fsLookup (fs : Fs) (p : List String) : Option (List Nat) :=
  match (fs : List (List String × List Nat)).find? (fun e => e.1 = p) with
  | some e => some e.2
  | none => none

/-- File creation/replacement in the modelled file system. -/
def fsInsert (fs : Fs) (p : List String) (content : List Nat) : Fs :=
  ((fs : List (List String × List Nat)).filter (fun e => e.1 ≠ p)) ++ [(p, content)]

/-- `FileStorage::write_to_file`: open-or-create, seek to `offset`, write
`data` in place, keeping bytes after the written region; a seek past the end
leaves filesystem hole bytes, modelled as zeros. -/
def writeToFile (fs : Fs) (path : List String) (offset : Nat) (data : List Nat) : Fs :=
  let cur := (fsLookup fs path).getD []
  let padded := cur ++ List.replicate (offset - cur.length) 0
  fsInsert fs path (listOverwrite padded offset data)

/-- `FileStorage::read_from_file`: open (failing when the file is absent),
seek to `offset` and `read_exact` `length` bytes (failing when the file is
too short). -/
def readFromFile (fs : Fs) (path : List String) (offset length : Nat) :
    Except String (List Nat) :=
  match fsLookup fs path with
  | none => .error "No such file"
  | some content =>
      if offset + length ≤ content.length then .ok ((content.drop offset).take length)
      else .error "failed to fill whole buffer"

/-- The `FileStorage` struct (its metadata; the disk contents travel
separately as an `Fs` value). -/
structure FileStorage where
  downloadDir : List String
  torrent : Torrent
  fileMap : List FileMapping
  totalLength : Nat
  deriving DecidableEq

/-- `FileStorage::verify_piece_hash`, with SHA-1 as a parameter. -/
def FileStorage.verifyPieceHash (sha1 : List Nat → List Nat) (st : FileStorage)
    (pieceIndex : Nat) (data : List Nat) : Except String Bool :=
  if pieceIndex ≥ st.torrent.pieces.length then
    .error "Piece index out of range"
  else
    .ok (decide (sha1 data = st.torrent.pieces.getD pieceIndex []))

/-- `FileStorage::write_piece`: verify the hash, clamp the piece span to
`total_length`, then for each affected file write the corresponding slice
of `data` — seeking, as the source does, to `overlap_start - piece_start`
(the `write_start = file_start - piece_start` line) rather than to
`overlap_start - mapping.start_offset`. -/
def FileStorage.writePiece (sha1 : List Nat → List Nat) (st : FileStorage) (fs : Fs)
    (pieceIndex : Nat) (data : List Nat) : Except String Fs :=
  match st.verifyPieceHash sha1 pieceIndex data with
  | .error e => .error e
  | .ok flag =>
      if ¬ flag then .error "Piece hash verification failed"
      else
        let pieceStart := pieceIndex * st.torrent.pieceLength
        let pieceEnd := min (pieceStart + data.length) st.totalLength
        let affected := getAffectedFiles st.fileMap pieceStart pieceEnd
        .ok (affected.foldl
          (fun acc af =>
            let writeStart := af.2.1 - pieceStart
            let writeLength := af.2.2 - af.2.1
            let fileData := (data.drop acc.2).take writeLength
            (writeToFile acc.1 af.1.path writeStart fileData, acc.2 + writeLength))
          (fs, 0)).1

/-- `FileStorage::read_piece`: compute the piece span (the last piece is
shorter), then read each affected file's overlap — seeking to
`overlap_start - mapping.start_offset` — into a zeroed buffer. -/
def FileStorage.readPiece (st : FileStorage) (fs : Fs) (pieceIndex : Nat) :
    Except String (List Nat) :=
  let pieceStart := pieceIndex * st.torrent.pieceLength
  let pieceLength :=
    if pieceIndex = st.torrent.pieces.length - 1 then st.totalLength - pieceStart
    else st.torrent.pieceLength
  let pieceEnd := pieceStart + pieceLength
  let affected := getAffectedFiles st.fileMap pieceStart pieceEnd
  match affected.foldlM
      (fun acc af =>
        let readStart := af.2.1 - af.1.startOffset
        let readLength := af.2.2 - af.2.1
        match readFromFile fs af.1.path readStart readLength with
        | .ok fileData =>
            (.ok (listOverwrite acc.1 acc.2 fileData, acc.2 + readLength)
              : Except String (List Nat × Nat))
        | .error e => .error e)
      (List.replicate pieceLength 0, 0) with
  | .ok acc => .ok acc.1
  | .error e => .error e

/-- `FileStorage::is_piece_complete`: read then verify; a read failure is
`Ok(false)`. -/
def FileStorage.isPieceComplete (sha1 : List Nat → List Nat) (st : FileStorage)
    (fs : Fs) (pieceIndex : Nat) : Except String Bool :=
  match st.readPiece fs pieceIndex with
  | .ok data => st.verifyPieceHash sha1 pieceIndex data
  | .error _ => .ok false

/-- Exact tiling: the listed half-open ranges, in order, concatenate to
exactly `[s, e)` — each range starts where the previous one ended, with no
gap and no duplication. -/
def tilesExactly : List (Nat × Nat) → Nat → Nat → Bool
  | [], s, e => s = e
  | (a, b) :: rest, s, e => a = s && a ≤ b && tilesExactly rest b e

/-- The mappings are laid out back-to-back starting at offset `c` (the
prefix-sum layout `build_file_map` produces). -/
def contiguousFrom : Nat → List FileMapping → Prop
  | _, [] => True
  | c, m :: rest => m.startOffset = c ∧ contiguousFrom (c + m.length) rest

/-- Total mapped length of a file map. -/
def totalLen (fm : List FileMapping) : Nat := (fm.map (fun m => m.length)).sum

theorem buildFileMapLoop_contiguous (baseDir : List String) :
    ∀ (files : List TorrentFile) (c : Nat),
      contiguousFrom c (buildFileMapLoop baseDir files c) := by
  intro files
  induction files with
  | nil => intro c; trivial
  | cons f rest ih =>
      intro c
      exact ⟨rfl, ih (c + f.length)⟩

theorem buildFileMap_contiguous (t : Torrent) (dir : List String) :
    contiguousFrom 0 (buildFileMap t dir) := by
  unfold buildFileMap
  match t.files with
  | some files => exact buildFileMapLoop_contiguous _ files 0
  | none => exact ⟨rfl, trivial⟩

theorem affected_tiles :
    ∀ (fm : List FileMapping) (c s e : Nat),
      contiguousFrom c fm → s ≤ e → e ≤ c + totalLen fm →
      tilesExactly ((getAffectedFiles fm s e).map (fun af => (af.2.1, af.2.2)))
        (min e (max s c)) e = true := by
  intro fm
  induction fm with
  | nil =>
      intro c s e _ hse he
      have h1 : totalLen [] = 0 := rfl
      rw [h1] at he
      have h2 : min e (max s c) = e := by omega
      simp [getAffectedFiles, tilesExactly, h2]
  | cons m rest ih =>
      intro c s e hcont hse he
      obtain ⟨mpath, moff, mlen, mcomp⟩ := m
      obtain ⟨hoff, hcont2⟩ := hcont
      simp only at hoff
      replace hoff : c = moff := hoff.symm
      subst hoff
      have htot : totalLen ({ path := mpath, startOffset := c, length := mlen,
                              isComplete := mcomp } :: rest) = mlen + totalLen rest := by
        simp [totalLen]
      rw [htot] at he
      by_cases hcond : s < c + mlen ∧ e > c
      · have hunf : getAffectedFiles ({ path := mpath, startOffset := c, length := mlen,
                                         isComplete := mcomp } :: rest) s e
            = ({ path := mpath, startOffset := c, length := mlen, isComplete := mcomp },
                max s c, min e (c + mlen))
              :: getAffectedFiles rest s e := by
          simp only [getAffectedFiles, List.filterMap_cons]
          rw [if_pos hcond]
        rw [hunf]
        simp only [List.map_cons, tilesExactly, Bool.and_eq_true, decide_eq_true_eq]
        have hstart : min e (max s c) = max s c := by omega
        refine ⟨⟨hstart.symm, by omega⟩, ?_⟩
        have hih := ih (c + mlen) s e hcont2 hse (by omega)
        have heq : min e (max s (c + mlen)) = min e (c + mlen) := by
          omega
        rw [heq] at hih
        exact hih
      · have hunf : getAffectedFiles ({ path := mpath, startOffset := c, length := mlen,
                                         isComplete := mcomp } :: rest) s e
            = getAffectedFiles rest s e := by
          simp only [getAffectedFiles, List.filterMap_cons]
          rw [if_neg hcond]
        rw [hunf]
        have hih := ih (c + mlen) s e hcont2 hse (by omega)
        have heq : min e (max s (c + mlen)) = min e (max s c) := by
          rw [not_and_or] at hcond
          omega
        rw [heq] at hih
        exact hih

/-- Claim C5: for a file map built with prefix-sum start offsets and any
half-open range `[s, e)` inside the mapped span, the overlap ranges returned
by `get_affected_files(s, e)`, in order, concatenate to exactly `[s, e)` —
no gap, no duplication. -/
theorem C5_affected_cover (t : Torrent) (dir : List String) (s e : Nat)
    (hse : s ≤ e) (he : e ≤ totalLen (buildFileMap t dir)) :
    tilesExactly
      ((getAffectedFiles (buildFileMap t dir) s e).map (fun af => (af.2.1, af.2.2)))
      s e = true := by
  have hmain := affected_tiles (buildFileMap t dir) 0 s e
    (buildFileMap_contiguous t dir) hse (by simpa using he)
  have heq : min e (max s 0) = s := by omega
  rw [heq] at hmain
  exact hmain

/-- Claim C5 witness: the spec's multi-file example — files of lengths
10, 25, 5 and the piece-1 byte range [16, 32) — tiles exactly. -/
theorem C5_affected_cover_witness :
    tilesExactly
      ((getAffectedFiles
          (buildFileMap
            { announce := "", infoHash := [], pieceLength := 16,
              pieces := [[0], [0], [0]], name := "r", length := 40,
              files := some [{ path := ["a"], length := 10 },
                             { path := ["b"], length := 25 },
                             { path := ["c"], length := 5 }] }
            [])
          16 32).map (fun af => (af.2.1, af.2.2)))
      16 32 = true := by
  exact C5_affected_cover _ [] 16 32 (by omega) (by decide)

/-- Claim C1: evaluating the code at a failing input. A single-file torrent
of 4 bytes with 2-byte pieces and a pre-existing 4-byte file `[9,9,9,9]`:
writing piece 1 with matching-hash data `[1,2]` succeeds but stores the
bytes at file offset 0 (`write_start = overlap_start - piece_start`, the
source's slip) instead of offset 2 (`overlap_start - start_offset`, which
`read_piece` uses), so `read_piece(1)` then returns `[9,9] ≠ [1,2]` and the
write-then-read identity fails. -/
theorem C1_write_read_mismatch :
    FileStorage.verifyPieceHash (fun _ => [0])
      { downloadDir := ["dl"],
        torrent := { announce := "", infoHash := [], pieceLength := 2,
                     pieces := [[0], [0]], name := "f", length := 4, files := none },
        fileMap := buildFileMap
          { announce := "", infoHash := [], pieceLength := 2,
            pieces := [[0], [0]], name := "f", length := 4, files := none } ["dl"],
        totalLength := 4 }
      1 [1, 2] = .ok true
    ∧ FileStorage.writePiece (fun _ => [0])
      { downloadDir := ["dl"],
        torrent := { announce := "", infoHash := [], pieceLength := 2,
                     pieces := [[0], [0]], name := "f", length := 4, files := none },
        fileMap := buildFileMap
          { announce := "", infoHash := [], pieceLength := 2,
            pieces := [[0], [0]], name := "f", length := 4, files := none } ["dl"],
        totalLength := 4 }
      [(["dl", "f"], [9, 9, 9, 9])] 1 [1, 2] = .ok [(["dl", "f"], [1, 2, 9, 9])]
    ∧ FileStorage.readPiece
      { downloadDir := ["dl"],
        torrent := { announce := "", infoHash := [], pieceLength := 2,
                     pieces := [[0], [0]], name := "f", length := 4, files := none },
        fileMap := buildFileMap
          { announce := "", infoHash := [], pieceLength := 2,
            pieces := [[0], [0]], name := "f", length := 4, files := none } ["dl"],
        totalLength := 4 }
      [(["dl", "f"], [1, 2, 9, 9])] 1 = .ok [9, 9]
    ∧ ([9, 9] : List Nat) ≠ [1, 2] := by
  exact ⟨rfl, rfl, rfl, by decide⟩

/-!  ## Block coordinator (src/net/block_manager.rs)  -/

/-- The `DownloadStats` struct. -/
structure DownloadStats where
  totalPieces : Nat
  completedPieces : Nat
  verifiedPieces : Nat
  failedPieces : Nat
  totalBytes : Nat
  downloadedBytes : Nat
  downloadStart : Option Nat
  lastUpdate : Option Nat
  deriving DecidableEq

instance : Inhabited Piece := ⟨Piece.new 0 0 []⟩

/-- The `BlockManager` struct: pieces, storage metadata, the modelled disk
contents, the download queue and the stats. -/
structure BlockManager where
  torrent : Torrent
  pieces : List Piece
  storage : FileStorage
  fs : Fs
  downloadQueue : List Nat
  stats : DownloadStats
  deriving DecidableEq

/-- `BlockManager::verify_and_write_piece`. Returns `none` for the Rust panic
of `self.pieces[piece_index]` on an out-of-range index; otherwise the
`Result` paired with the successor state. On hash failure the piece passes
through `Failed`, the failed counter is bumped, the piece is reset and its
index re-queued; on success the piece data is written through storage and
the piece becomes `Verified`. -/
def verifyAndWritePiece (sha1 : List Nat → List Nat) (bm : BlockManager)
    (pieceIndex : Nat) : Option (Except String Unit × BlockManager) :=
  if h : pieceIndex < bm.pieces.length then
    let piece := bm.pieces.get ⟨pieceIndex, h⟩
    if piece.state ≠ .complete then some (.error "Piece is not complete", bm)
    else
      match piece.assemblePiece with
      | .error e => some (.error e, bm)
      | .ok pieceData =>
          if ¬ piece.verifyHash sha1 pieceData then
            some (.error "Hash verification failed",
              { bm with
                pieces := bm.pieces.set pieceIndex ({ piece with state := .failed }).reset
                stats := { bm.stats with failedPieces := bm.stats.failedPieces + 1 }
                downloadQueue := bm.downloadQueue ++ [pieceIndex] })
          else
            match bm.storage.writePiece sha1 bm.fs pieceIndex pieceData with
            | .error e => some (.error e, bm)
            | .ok fs2 =>
                some (.ok (),
                  { bm with
                    fs := fs2
                    pieces := bm.pieces.set pieceIndex { piece with state := .verified }
                    stats := { bm.stats with
                      completedPieces := bm.stats.completedPieces + 1
                      verifiedPieces := bm.stats.verifiedPieces + 1 } })
  else none

/-- `BlockManager::handle_block_received`. The source guards only
`piece_index > pieces.len()`, then indexes `self.pieces[piece_index]` —
which panics (`none`) when `piece_index == pieces.len()`. -/
def handleBlockReceived (sha1 : List Nat → List Nat) (bm : BlockManager)
    (block : Block) (now : Nat) : Option (Except String Unit × BlockManager) :=
  let pieceIndex := block.info.pieceIndex
  if pieceIndex > bm.pieces.length then some (.error "Invalid piece index", bm)
  else if h : pieceIndex < bm.pieces.length then
    let piece := bm.pieces.get ⟨pieceIndex, h⟩
    match piece.addBlock block now with
    | .error e => some (.error e, bm)
    | .ok piece1 =>
        let bm1 := { bm with
          pieces := bm.pieces.set pieceIndex piece1
          stats := { bm.stats with
            downloadedBytes := piece1.blocks.length * BLOCK_SIZE
            lastUpdate := some now } }
        if piece1.state = .complete then verifyAndWritePiece sha1 bm1 pieceIndex
        else some (.ok (), bm1)
  else none

/-- The `.unwrap_or(false)` use of `is_piece_complete` in
`rebuild_download_queue`. -/
def isPieceCompleteBool (sha1 : List Nat → List Nat) (st : FileStorage) (fs : Fs)
    (i : Nat) : Bool :=
  match st.isPieceComplete sha1 fs i with
  | .ok b => b
  | .error _ => false

/-- The indexed loop of `BlockManager::rebuild_download_queue`: mark on-disk
complete pieces `Verified` (crediting stats), enqueue the rest. -/
def rebuildLoop (sha1 : List Nat → List Nat) (st : FileStorage) (fs : Fs) :
    List Nat → List Piece → List Nat → DownloadStats →
    List Piece × List Nat × DownloadStats
  | [], pieces, queue, stats => (pieces, queue, stats)
  | idx :: rest, pieces, queue, stats =>
      if isPieceCompleteBool sha1 st fs idx then
        rebuildLoop sha1 st fs rest
          (pieces.set idx { pieces.getD idx default with state := .verified })
          queue
          { stats with
            verifiedPieces := stats.verifiedPieces + 1
            downloadedBytes := stats.downloadedBytes + (pieces.getD idx default).length }
      else rebuildLoop sha1 st fs rest pieces (queue ++ [idx]) stats

/-- `BlockManager::rebuild_download_queue` (always `Ok` in the source). -/
def rebuildDownloadQueue (sha1 : List Nat → List Nat) (bm : BlockManager) : BlockManager :=
  let r := rebuildLoop sha1 bm.storage bm.fs (List.range bm.pieces.length)
    bm.pieces [] bm.stats
  { bm with pieces := r.1, downloadQueue := r.2.1, stats := r.2.2 }

/-- `BlockManager::get_next_block_request`: bounds-checked (returns `None`
out of range), flips `Pending → InProgress`, then delegates to the piece. -/
def getNextBlockRequestBM (bm : BlockManager) (pieceIndex now : Nat) :
    Option BlockInfo × BlockManager :=
  if h : pieceIndex < bm.pieces.length then
    let piece := bm.pieces.get ⟨pieceIndex, h⟩
    let piece1 := if piece.state = .pending then { piece with state := .inProgress } else piece
    let r := piece1.getNextBlockRequest now
    (r.1, { bm with pieces := bm.pieces.set pieceIndex r.2 })
  else (none, bm)

/-- `BlockManager::get_next_piece_to_download`: pop the queue front. -/
def getNextPieceToDownload (bm : BlockManager) : Option Nat × BlockManager :=
  match bm.downloadQueue with
  | [] => (none, bm)
  | q :: rest => (some q, { bm with downloadQueue := rest })

/-- One coordinator operation, as a step relation on `BlockManager` states;
panicking calls (`none`) produce no successor state. -/
inductive BMStep (sha1 : List Nat → List Nat) : BlockManager → BlockManager → Prop where
  | rebuild (bm : BlockManager) : BMStep sha1 bm (rebuildDownloadQueue sha1 bm)
  | nextPiece (bm : BlockManager) : BMStep sha1 bm (getNextPieceToDownload bm).2
  | nextBlock (bm : BlockManager) (i now : Nat) :
      BMStep sha1 bm (getNextBlockRequestBM bm i now).2
  | handleBlock (bm : BlockManager) (block : Block) (now : Nat)
      (r : Except String Unit) (bm2 : BlockManager) :
      handleBlockReceived sha1 bm block now = some (r, bm2) → BMStep sha1 bm bm2
  | verifyWrite (bm : BlockManager) (i : Nat)
      (r : Except String Unit) (bm2 : BlockManager) :
      verifyAndWritePiece sha1 bm i = some (r, bm2) → BMStep sha1 bm bm2

/-- State of the coordinator's piece `i` (the default for an out-of-range
index is `Pending`). -/
def pieceStateAt (bm : BlockManager) (i : Nat) : PieceState :=
  (bm.pieces.getD i default).state

theorem getD_set_self {α : Type} [Inhabited α] (l : List α) (i : Nat) (x : α)
    (h : i < l.length) : (l.set i x).getD i default = x := by
  rw [List.getD_eq_getElem?_getD, List.getElem?_set_self]
  · simp
  · simpa using h

theorem getD_set_other {α : Type} [Inhabited α] (l : List α) (i j : Nat) (x : α)
    (h : i ≠ j) : (l.set i x).getD j default = l.getD j default := by
  rw [List.getD_eq_getElem?_getD, List.getElem?_set_ne h, List.getD_eq_getElem?_getD]

theorem getD_eq_get {α : Type} [Inhabited α] (l : List α) (i : Nat)
    (h : i < l.length) : l.getD i default = l.get ⟨i, h⟩ := by
  rw [List.getD_eq_getElem?_getD, List.getElem?_eq_getElem h]
  rfl

theorem writePiece_hash (sha1 : List Nat → List Nat) (st : FileStorage) (fs : Fs)
    (i : Nat) (data : List Nat) (fs2 : Fs)
    (h : st.writePiece sha1 fs i data = .ok fs2) :
    sha1 data = st.torrent.pieces.getD i [] := by
  unfold FileStorage.writePiece FileStorage.verifyPieceHash at h
  by_cases hge : i ≥ st.torrent.pieces.length
  · rw [if_pos hge] at h
    exact absurd h (by simp)
  · rw [if_neg hge] at h
    by_cases hdec : sha1 data = st.torrent.pieces.getD i []
    · exact hdec
    · exfalso
      rw [show (decide (sha1 data = st.torrent.pieces.getD i [])) = false by
        simpa using hdec] at h
      simp at h

theorem isPieceCompleteBool_spec (sha1 : List Nat → List Nat) (st : FileStorage)
    (fs : Fs) (i : Nat) (h : isPieceCompleteBool sha1 st fs i = true) :
    ∃ data, st.readPiece fs i = .ok data
      ∧ sha1 data = st.torrent.pieces.getD i [] := by
  unfold isPieceCompleteBool FileStorage.isPieceComplete at h
  rcases hread : st.readPiece fs i with e | data
  · rw [hread] at h
    simp at h
  · unfold FileStorage.verifyPieceHash at h
    simp only [hread] at h
    by_cases hge : i ≥ st.torrent.pieces.length
    · simp only [if_pos hge] at h
      simp at h
    · simp only [if_neg hge] at h
      refine ⟨data, rfl, ?_⟩
      simpa using h

theorem assemble_set_state (p : Piece) (s : PieceState) :
    Piece.assemblePiece { p with state := s } = p.assemblePiece := rfl

theorem getNextBlockRequest_state (p : Piece) (now : Nat) :
    ((p.getNextBlockRequest now).2).state = p.state := by
  unfold Piece.getNextBlockRequest
  rcases hh : (p.reapTimeouts now).missingBlocks.head? with _ | b
  · simp only [hh]
    rfl
  · simp only [hh]
    split
    · rfl
    · rfl

theorem addBlock_state (p : Piece) (b : Block) (now : Nat) (p1 : Piece)
    (h : p.addBlock b now = .ok p1) : p1.state = .complete ∨ p1.state = p.state := by
  unfold Piece.addBlock at h
  by_cases h1 : b.info.pieceIndex ≠ p.index
  · rw [if_pos h1] at h; exact absurd h (by simp)
  rw [if_neg h1] at h
  by_cases h2 : b.info.begin + b.data.length > p.length
  · rw [if_pos h2] at h; exact absurd h (by simp)
  rw [if_neg h2] at h
  simp only at h
  split at h
  · left
    rw [← Except.ok.inj h]
  · right
    rw [← Except.ok.inj h]

theorem verifyAndWritePiece_verified (sha1 : List Nat → List Nat)
    (bm : BlockManager) (i : Nat) (r : Except String Unit) (bm2 : BlockManager)
    (h : verifyAndWritePiece sha1 bm i = some (r, bm2)) (j : Nat)
    (hnot : pieceStateAt bm j ≠ .verified)
    (hver : pieceStateAt bm2 j = .verified) :
    ∃ data, sha1 data = bm.storage.torrent.pieces.getD j []
      ∧ Piece.assemblePiece (bm2.pieces.getD j default) = .ok data := by
  unfold verifyAndWritePiece at h
  by_cases hlen : i < bm.pieces.length
  swap
  · rw [dif_neg hlen] at h
    exact absurd h (by simp)
  rw [dif_pos hlen] at h
  simp only at h
  by_cases hst : (bm.pieces.get ⟨i, hlen⟩).state ≠ .complete
  · rw [if_pos hst] at h
    have hbm2 : bm2 = bm := (congrArg Prod.snd (Option.some.inj h)).symm
    subst hbm2
    exact absurd hver hnot
  rw [if_neg hst] at h
  rcases hasm : (bm.pieces.get ⟨i, hlen⟩).assemblePiece with e | pieceData
  · simp only [hasm] at h
    have hbm2 : bm2 = bm := (congrArg Prod.snd (Option.some.inj h)).symm
    subst hbm2
    exact absurd hver hnot
  simp only [hasm] at h
  by_cases hhash : ¬ (bm.pieces.get ⟨i, hlen⟩).verifyHash sha1 pieceData
  · rw [if_pos hhash] at h
    have hbm2 := (congrArg Prod.snd (Option.some.inj h)).symm
    subst hbm2
    exfalso
    unfold pieceStateAt at hver
    simp only at hver
    by_cases hij : i = j
    · subst hij
      rw [getD_set_self _ _ _ hlen] at hver
      simp [Piece.reset] at hver
    · rw [getD_set_other _ _ _ _ hij] at hver
      exact hnot hver
  rw [if_neg hhash] at h
  rcases hwrite : bm.storage.writePiece sha1 bm.fs i pieceData with e | fs2
  · simp only [hwrite] at h
    have hbm2 : bm2 = bm := (congrArg Prod.snd (Option.some.inj h)).symm
    subst hbm2
    exact absurd hver hnot
  simp only [hwrite] at h
  have hbm2 := (congrArg Prod.snd (Option.some.inj h)).symm
  subst hbm2
  unfold pieceStateAt at hver
  simp only at hver
  by_cases hij : i = j
  · subst hij
    refine ⟨pieceData, writePiece_hash sha1 bm.storage bm.fs i pieceData fs2 hwrite, ?_⟩
    simp only
    rw [getD_set_self _ _ _ hlen]
    rw [assemble_set_state]
    exact hasm
  · rw [getD_set_other _ _ _ _ hij] at hver
    exact absurd hver hnot

theorem handleBlockReceived_verified (sha1 : List Nat → List Nat)
    (bm : BlockManager) (block : Block) (now : Nat)
    (r : Except String Unit) (bm2 : BlockManager)
    (h : handleBlockReceived sha1 bm block now = some (r, bm2)) (j : Nat)
    (hnot : pieceStateAt bm j ≠ .verified)
    (hver : pieceStateAt bm2 j = .verified) :
    ∃ data, sha1 data = bm.storage.torrent.pieces.getD j []
      ∧ Piece.assemblePiece (bm2.pieces.getD j default) = .ok data := by
  unfold handleBlockReceived at h
  by_cases hgt : block.info.pieceIndex > bm.pieces.length
  · rw [if_pos hgt] at h
    have hbm2 : bm2 = bm := (congrArg Prod.snd (Option.some.inj h)).symm
    subst hbm2
    exact absurd hver hnot
  rw [if_neg hgt] at h
  by_cases hlen : block.info.pieceIndex < bm.pieces.length
  swap
  · rw [dif_neg hlen] at h
    exact absurd h (by simp)
  rw [dif_pos hlen] at h
  simp only at h
  rcases hadd : (bm.pieces.get ⟨block.info.pieceIndex, hlen⟩).addBlock block now
    with e | piece1
  · simp only [hadd] at h
    have hbm2 : bm2 = bm := (congrArg Prod.snd (Option.some.inj h)).symm
    subst hbm2
    exact absurd hver hnot
  simp only [hadd] at h
  by_cases hcompl : piece1.state = .complete
  · rw [if_pos hcompl] at h
    have hmid := verifyAndWritePiece_verified sha1 _ block.info.pieceIndex r bm2 h j
    have hnot1 : pieceStateAt { bm with
        pieces := bm.pieces.set block.info.pieceIndex piece1
        stats := { bm.stats with
          downloadedBytes := piece1.blocks.length * BLOCK_SIZE
          lastUpdate := some now } } j ≠ .verified := by
      unfold pieceStateAt
      simp only
      by_cases hij : block.info.pieceIndex = j
      · subst hij
        rw [getD_set_self _ _ _ hlen, hcompl]
        simp
      · rw [getD_set_other _ _ _ _ hij]
        exact hnot
    exact hmid hnot1 hver
  · rw [if_neg hcompl] at h
    have hbm2 := (congrArg Prod.snd (Option.some.inj h)).symm
    subst hbm2
    exfalso
    unfold pieceStateAt at hver
    simp only at hver
    by_cases hij : block.info.pieceIndex = j
    · subst hij
      rw [getD_set_self _ _ _ hlen] at hver
      rcases addBlock_state _ _ _ _ hadd with hc | hs
      · rw [hver] at hc
        simp at hc
      · rw [hver] at hs
        apply hnot
        unfold pieceStateAt
        rw [getD_eq_get _ _ hlen]
        exact hs.symm
    · rw [getD_set_other _ _ _ _ hij] at hver
      exact hnot hver

theorem rebuildLoop_verified (sha1 : List Nat → List Nat) (st : FileStorage) (fs : Fs) :
    ∀ (idxs : List Nat) (pieces : List Piece) (queue : List Nat)
      (stats : DownloadStats) (j : Nat),
      ((rebuildLoop sha1 st fs idxs pieces queue stats).1.getD j default).state = .verified →
      (pieces.getD j default).state ≠ .verified →
      isPieceCompleteBool sha1 st fs j = true := by
  intro idxs
  induction idxs with
  | nil =>
      intro pieces queue stats j hver hnot
      exact absurd hver hnot
  | cons idx rest ih =>
      intro pieces queue stats j hver hnot
      unfold rebuildLoop at hver
      by_cases hc : isPieceCompleteBool sha1 st fs idx
      · rw [if_pos hc] at hver
        by_cases hij : idx = j
        · subst hij
          exact hc
        · refine ih _ _ _ j hver ?_
          rw [getD_set_other _ _ _ _ hij]
          exact hnot
      · rw [if_neg hc] at hver
        exact ih _ _ _ j hver hnot

/-- Claim C6: one coordinator step never newly marks a piece `Verified`
without a successful SHA-1 check — whenever a step takes piece `j` from a
non-`Verified` state to `Verified`, there is data hashing to the expected
`pieces[j]` which is either the piece's assembled data (the
`verify_and_write_piece` path, whose blocks survive into the successor
state) or the piece read back from storage (the `rebuild_download_queue`
resume path). -/
theorem C6_hash_gated_verified (sha1 : List Nat → List Nat)
    (bm bm2 : BlockManager) (hstep : BMStep sha1 bm bm2) (j : Nat)
    (hnot : pieceStateAt bm j ≠ .verified)
    (hver : pieceStateAt bm2 j = .verified) :
    ∃ data, sha1 data = bm.storage.torrent.pieces.getD j []
      ∧ (Piece.assemblePiece (bm2.pieces.getD j default) = .ok data
        ∨ FileStorage.readPiece bm.storage bm.fs j = .ok data) := by
  cases hstep with
  | rebuild =>
      have hrb : pieceStateAt (rebuildDownloadQueue sha1 bm) j = .verified := hver
      unfold rebuildDownloadQueue pieceStateAt at hrb
      simp only at hrb
      have hcompl := rebuildLoop_verified sha1 bm.storage bm.fs
        (List.range bm.pieces.length) bm.pieces [] bm.stats j hrb hnot
      obtain ⟨data, hread, hhash⟩ :=
        isPieceCompleteBool_spec sha1 bm.storage bm.fs j hcompl
      exact ⟨data, hhash, Or.inr hread⟩
  | nextPiece =>
      exfalso
      apply hnot
      unfold getNextPieceToDownload at hver
      rcases hq : bm.downloadQueue with _ | ⟨q, rest⟩
      · rw [hq] at hver
        exact hver
      · rw [hq] at hver
        exact hver
  | nextBlock i now =>
      exfalso
      unfold getNextBlockRequestBM at hver
      by_cases hlen : i < bm.pieces.length
      swap
      · rw [dif_neg hlen] at hver
        exact hnot hver
      rw [dif_pos hlen] at hver
      unfold pieceStateAt at hver
      simp only at hver
      by_cases hij : i = j
      · subst hij
        rw [getD_set_self _ _ _ hlen] at hver
        rw [getNextBlockRequest_state] at hver
        by_cases hpend : (bm.pieces.get ⟨i, hlen⟩).state = .pending
        · rw [if_pos hpend] at hver
          simp at hver
        · rw [if_neg hpend] at hver
          apply hnot
          unfold pieceStateAt
          rw [getD_eq_get _ _ hlen]
          exact hver
      · rw [getD_set_other _ _ _ _ hij] at hver
        exact hnot hver
  | handleBlock block now r bm2 heq =>
      obtain ⟨data, hh, ha⟩ :=
        handleBlockReceived_verified sha1 bm block now r bm2 heq j hnot hver
      exact ⟨data, hh, Or.inl ha⟩
  | verifyWrite i r bm2 heq =>
      obtain ⟨data, hh, ha⟩ :=
        verifyAndWritePiece_verified sha1 bm i r bm2 heq j hnot hver
      exact ⟨data, hh, Or.inl ha⟩

/-- Claim C6 witness: a concrete `verify_and_write_piece` step on a complete
one-byte piece whose hash matches marks it `Verified`, and the hash-check
data is exhibited. -/
theorem C6_hash_gated_verified_witness :
    ∃ data, (fun _ => ([0] : List Nat)) data = [0]
      ∧ (Piece.assemblePiece
          { index := 0, length := 1, hash := [0], state := .verified,
            blocks := [(0, { info := ⟨0, 0, 1⟩, data := [5], receivedAt := 0 })],
            missingBlocks := [], requestedBlocks := [],
            downloadStart := some 0, downloadComplete := some 0 } = .ok data
        ∨ FileStorage.readPiece
            { downloadDir := ["dl"],
              torrent := { announce := "", infoHash := [], pieceLength := 1,
                           pieces := [[0]], name := "f", length := 1, files := none },
              fileMap := buildFileMap
                { announce := "", infoHash := [], pieceLength := 1,
                  pieces := [[0]], name := "f", length := 1, files := none } ["dl"],
              totalLength := 1 }
            [] 0 = .ok data) := by
  exact C6_hash_gated_verified (fun _ => [0])
    { torrent := { announce := "", infoHash := [], pieceLength := 1,
                   pieces := [[0]], name := "f", length := 1, files := none },
      pieces := [{ index := 0, length := 1, hash := [0], state := .complete,
                   blocks := [(0, { info := ⟨0, 0, 1⟩, data := [5], receivedAt := 0 })],
                   missingBlocks := [], requestedBlocks := [],
                   downloadStart := some 0, downloadComplete := some 0 }],
      storage := { downloadDir := ["dl"],
                   torrent := { announce := "", infoHash := [], pieceLength := 1,
                                pieces := [[0]], name := "f", length := 1, files := none },
                   fileMap := buildFileMap
                     { announce := "", infoHash := [], pieceLength := 1,
                       pieces := [[0]], name := "f", length := 1, files := none } ["dl"],
                   totalLength := 1 },
      fs := [], downloadQueue := [],
      stats := { totalPieces := 1, completedPieces := 0, verifiedPieces := 0,
                 failedPieces := 0, totalBytes := 1, downloadedBytes := 0,
                 downloadStart := none, lastUpdate := none } }
    { torrent := { announce := "", infoHash := [], pieceLength := 1,
                   pieces := [[0]], name := "f", length := 1, files := none },
      pieces := [{ index := 0, length := 1, hash := [0], state := .verified,
                   blocks := [(0, { info := ⟨0, 0, 1⟩, data := [5], receivedAt := 0 })],
                   missingBlocks := [], requestedBlocks := [],
                   downloadStart := some 0, downloadComplete := some 0 }],
      storage := { downloadDir := ["dl"],
                   torrent := { announce := "", infoHash := [], pieceLength := 1,
                                pieces := [[0]], name := "f", length := 1, files := none },
                   fileMap := buildFileMap
                     { announce := "", infoHash := [], pieceLength := 1,
                       pieces := [[0]], name := "f", length := 1, files := none } ["dl"],
                   totalLength := 1 },
      fs := [(["dl", "f"], [5])], downloadQueue := [],
      stats := { totalPieces := 1, completedPieces := 1, verifiedPieces := 1,
                 failedPieces := 0, totalBytes := 1, downloadedBytes := 0,
                 downloadStart := none, lastUpdate := none } }
    (BMStep.verifyWrite _ 0 (.ok ()) _ rfl) 0 (by decide) rfl

/-- Claim C8: when a `Complete` piece fails hash verification in
`verify_and_write_piece`, the call returns an error after marking the piece
`Failed` and resetting it — the final state has the piece back to `Pending`
with cleared block and request maps and a repopulated missing set, the
failed-pieces counter incremented by one, the piece index pushed back onto
the download queue, the storage contents untouched, and every other piece
unchanged. -/
theorem C8_hash_failure (sha1 : List Nat → List Nat) (bm : BlockManager) (i : Nat)
    (hlen : i < bm.pieces.length)
    (hstate : (bm.pieces.get ⟨i, hlen⟩).state = .complete)
    (data : List Nat)
    (hasm : (bm.pieces.get ⟨i, hlen⟩).assemblePiece = .ok data)
    (hbad : sha1 data ≠ (bm.pieces.get ⟨i, hlen⟩).hash) :
    ∃ e bm2, verifyAndWritePiece sha1 bm i = some (.error e, bm2)
      ∧ (bm2.pieces.getD i default).state = .pending
      ∧ (bm2.pieces.getD i default).blocks = []
      ∧ (bm2.pieces.getD i default).requestedBlocks = []
      ∧ (bm2.pieces.getD i default).missingBlocks
          = initialMissingBlocks (bm.pieces.get ⟨i, hlen⟩).index
              (bm.pieces.get ⟨i, hlen⟩).length
      ∧ bm2.stats.failedPieces = bm.stats.failedPieces + 1
      ∧ bm2.downloadQueue = bm.downloadQueue ++ [i]
      ∧ bm2.fs = bm.fs
      ∧ (∀ k, k ≠ i → bm2.pieces.getD k default = bm.pieces.getD k default) := by
  refine ⟨"Hash verification failed",
    { bm with
      pieces := bm.pieces.set i ({ bm.pieces.get ⟨i, hlen⟩ with state := .failed }).reset
      stats := { bm.stats with failedPieces := bm.stats.failedPieces + 1 }
      downloadQueue := bm.downloadQueue ++ [i] }, ?_, ?_, ?_, ?_, ?_, rfl, rfl, rfl, ?_⟩
  · unfold verifyAndWritePiece
    rw [dif_pos hlen]
    simp only
    rw [if_neg (by simp only [List.get_eq_getElem] at hstate; simp [hstate])]
    simp only [hasm]
    rw [if_pos (by simp only [List.get_eq_getElem] at hbad; simp [Piece.verifyHash, hbad])]
  · rw [getD_set_self _ _ _ hlen]
    rfl
  · rw [getD_set_self _ _ _ hlen]
    rfl
  · rw [getD_set_self _ _ _ hlen]
    rfl
  · rw [getD_set_self _ _ _ hlen]
    rfl
  · intro k hk
    exact getD_set_other _ _ _ _ (fun hik => hk hik.symm)

/-- Claim C8 witness: a complete one-byte piece with expected hash `[1]`
under the constant hash function `[0]` fails verification and is reset and
re-queued, with storage untouched. -/
theorem C8_hash_failure_witness :
    ∃ e bm2, verifyAndWritePiece (fun _ => [0])
        { torrent := { announce := "", infoHash := [], pieceLength := 1,
                       pieces := [[1]], name := "f", length := 1, files := none },
          pieces := [{ index := 0, length := 1, hash := [1], state := .complete,
                       blocks := [(0, { info := ⟨0, 0, 1⟩, data := [5], receivedAt := 0 })],
                       missingBlocks := [], requestedBlocks := [],
                       downloadStart := some 0, downloadComplete := some 0 }],
          storage := { downloadDir := ["dl"],
                       torrent := { announce := "", infoHash := [], pieceLength := 1,
                                    pieces := [[1]], name := "f", length := 1, files := none },
                       fileMap := [],
                       totalLength := 1 },
          fs := [], downloadQueue := [],
          stats := { totalPieces := 1, completedPieces := 0, verifiedPieces := 0,
                     failedPieces := 0, totalBytes := 1, downloadedBytes := 0,
                     downloadStart := none, lastUpdate := none } }
        0 = some (.error e, bm2)
      ∧ (bm2.pieces.getD 0 default).state = .pending
      ∧ (bm2.pieces.getD 0 default).blocks = []
      ∧ (bm2.pieces.getD 0 default).requestedBlocks = []
      ∧ (bm2.pieces.getD 0 default).missingBlocks = initialMissingBlocks 0 1
      ∧ bm2.stats.failedPieces = 0 + 1
      ∧ bm2.downloadQueue = [] ++ [0]
      ∧ bm2.fs = []
      ∧ (∀ k, k ≠ 0 → bm2.pieces.getD k default
          = ([{ index := 0, length := 1, hash := [1], state := .complete,
                blocks := [(0, { info := ⟨0, 0, 1⟩, data := [5], receivedAt := 0 })],
                missingBlocks := [], requestedBlocks := [],
                downloadStart := some 0, downloadComplete := some 0 }]
              : List Piece).getD k default) := by
  exact C8_hash_failure (fun _ => [0]) _ 0 (by decide) rfl [5] rfl (by decide)

/-- Claim C10: evaluating the code at the failing input. With one piece, a
block carrying `piece_index = 1` (equal to the number of pieces) slips past
the `piece_index > pieces.len()` guard and hits the panicking
`self.pieces[piece_index]` index (modelled as `none`); only indices strictly
greater than the length are rejected with an error that leaves the state
unchanged. -/
theorem C10_out_of_range_panic :
    handleBlockReceived (fun _ => [0])
      { torrent := { announce := "", infoHash := [], pieceLength := 1,
                     pieces := [[0]], name := "f", length := 1, files := none },
        pieces := [Piece.new 0 1 [0]],
        storage := { downloadDir := ["dl"],
                     torrent := { announce := "", infoHash := [], pieceLength := 1,
                                  pieces := [[0]], name := "f", length := 1, files := none },
                     fileMap := [],
                     totalLength := 1 },
        fs := [], downloadQueue := [0],
        stats := { totalPieces := 1, completedPieces := 0, verifiedPieces := 0,
                   failedPieces := 0, totalBytes := 1, downloadedBytes := 0,
                   downloadStart := none, lastUpdate := none } }
      { info := ⟨1, 0, 1⟩, data := [0], receivedAt := 0 } 0 = none
    ∧ handleBlockReceived (fun _ => [0])
      { torrent := { announce := "", infoHash := [], pieceLength := 1,
                     pieces := [[0]], name := "f", length := 1, files := none },
        pieces := [Piece.new 0 1 [0]],
        storage := { downloadDir := ["dl"],
                     torrent := { announce := "", infoHash := [], pieceLength := 1,
                                  pieces := [[0]], name := "f", length := 1, files := none },
                     fileMap := [],
                     totalLength := 1 },
        fs := [], downloadQueue := [0],
        stats := { totalPieces := 1, completedPieces := 0, verifiedPieces := 0,
                   failedPieces := 0, totalBytes := 1, downloadedBytes := 0,
                   downloadStart := none, lastUpdate := none } }
      { info := ⟨2, 0, 1⟩, data := [0], receivedAt := 0 } 0
      = some (.error "Invalid piece index",
        { torrent := { announce := "", infoHash := [], pieceLength := 1,
                       pieces := [[0]], name := "f", length := 1, files := none },
          pieces := [Piece.new 0 1 [0]],
          storage := { downloadDir := ["dl"],
                       torrent := { announce := "", infoHash := [], pieceLength := 1,
                                    pieces := [[0]], name := "f", length := 1, files := none },
                       fileMap := [],
                       totalLength := 1 },
          fs := [], downloadQueue := [0],
          stats := { totalPieces := 1, completedPieces := 0, verifiedPieces := 0,
                     failedPieces := 0, totalBytes := 1, downloadedBytes := 0,
                     downloadStart := none, lastUpdate := none } }) := by
  exact ⟨rfl, rfl⟩

end Sekiro
